import Mathlib

/-!
Verification of the vCard construction core of `tools/generate_qr_code.py`:
field escaping, 75-column line folding, fingerprint normalization, record
building and payload-size validation.

Python strings are modeled as `List Char`; `str.replace` and `str.split` are
modeled by left-to-right, non-overlapping scanners (`pyReplace`, `pySplit`)
written with an explicit fuel argument so that they are structurally
recursive and compute by kernel reduction; the fuel (the length of the
scanned list) always suffices, and fuel-free unfolding equations are proved
below.  Fallible Python functions (those raising `ValueError`) return
`Except String`.
-/

/-- Shorthand: the `List Char` representation of a string literal. -/
def str (s : String) : List Char := s.toList

/-- The CRLF line terminator `"\r\n"`. -/
def CRLF : List Char := ['\r', '\n']

/-- The LF line terminator `"\n"`. -/
def LF : List Char := ['\n']

/-- `WARN_QR_BYTES = 2000` from the source. -/
def WARN_QR_BYTES : Nat := 2000

/-- `MAX_QR_BYTES = 2950` from the source. -/
def MAX_QR_BYTES : Nat := 2950

/-- `is_http_url(s)`: `bool(s) and (s.startswith("http://") or s.startswith("https://"))`. -/
def is_http_url (s : List Char) : Bool :=
  !s.isEmpty && ((str "http://").isPrefixOf s || (str "https://").isPrefixOf s)

/-- Fueled scanner for Python `str.replace(pat, rep)`: scan left to right,
at each position replace a leftmost occurrence of `pat` by `rep` and continue
after it, otherwise copy one character. -/
def pyReplaceGo (pat rep : List Char) : Nat → List Char → List Char
  | _, [] => []
  | 0, s => s
  | fuel+1, a :: rest =>
    if pat ≠ [] ∧ pat.isPrefixOf (a :: rest) then
      rep ++ pyReplaceGo pat rep fuel ((a :: rest).drop pat.length)
    else
      a :: pyReplaceGo pat rep fuel rest

/-- Python `s.replace(pat, rep)` (for nonempty `pat`). -/
def pyReplace (pat rep s : List Char) : List Char := pyReplaceGo pat rep s.length s

/-- Fueled scanner for Python `str.split(pat)` (nonempty separator `pat`):
maximal segments between non-overlapping leftmost occurrences of `pat`,
empty segments kept. -/
def pySplitGo (pat : List Char) : Nat → List Char → List (List Char)
  | _, [] => [[]]
  | 0, s => [s]
  | fuel+1, a :: rest =>
    if pat ≠ [] ∧ pat.isPrefixOf (a :: rest) then
      [] :: pySplitGo pat fuel ((a :: rest).drop pat.length)
    else
      match pySplitGo pat fuel rest with
      | [] => [[a]]
      | s :: ss => (a :: s) :: ss

/-- Python `s.split(pat)` for a nonempty separator `pat`. -/
def pySplit (pat s : List Char) : List (List Char) := pySplitGo pat s.length s

/-- Fueled version of the chunking comprehension
`[line[i:i+width] for i in range(0, len(line), width)]` (for `width ≥ 1`). -/
def chunksGo : Nat → Nat → List Char → List (List Char)
  | _, _, [] => []
  | 0, _, s => [s]
  | _+1, 0, s => [s]
  | fuel+1, w+1, a :: rest =>
    (a :: rest).take (w+1) :: chunksGo fuel (w+1) ((a :: rest).drop (w+1))

/-- The list of consecutive `width`-sized slices of `line` (for `width ≥ 1`),
i.e. `[line[i:i+width] for i in range(0, len(line), width)]`. -/
def chunksF (width : Nat) (line : List Char) : List (List Char) :=
  chunksGo line.length width line

/-- `escape_vcard_value` from the source:
```
if not s: return ""
s = s.replace("\\", "\\\\")
s = s.replace(";", "\\;")
s = s.replace(",", "\\,")
s = s.replace("\r\n", "\\n").replace("\n", "\\n")
return s
```
-/
def escape_vcard_value (s : List Char) : List Char :=
  if s = [] then []
  else
    pyReplace (str "\n") (str "\\n")
      (pyReplace (str "\r\n") (str "\\n")
        (pyReplace (str ",") (str "\\,")
          (pyReplace (str ";") (str "\\;")
            (pyReplace (str "\\") (str "\\\\") s))))

/-- `escape_vcard_value` on an `Optional[str]` argument: `None` is falsy in
Python, so `if not s: return ""` also covers the absent case. -/
def escape_vcard_value_opt : Option (List Char) → List Char
  | none => []
  | some s => escape_vcard_value s

/-- `fold_vcard_line(line, width=75, line_ending="\r\n")` from the source:
return `line` unchanged when it fits, otherwise join the `width`-sized
slices with `line_ending + " "`. -/
def fold_vcard_line (line : List Char) (width : Nat) (line_ending : List Char) : List Char :=
  if line.length ≤ width then line
  else List.intercalate (line_ending ++ [' ']) (chunksF width line)

/-- The regex character class `[0-9A-Fa-f]` used by `normalize_fingerprint`. -/
def isHexDigit (c : Char) : Bool := (str "0123456789ABCDEFabcdef").contains c

/-- The regex character class `[0-9A-F]` used by the `fullmatch` check. -/
def isUpperHexDigit (c : Char) : Bool := (str "0123456789ABCDEF").contains c

/-- `normalize_fingerprint` from the source: keep the hex digits, uppercase
them (`Char.toUpper` agrees with Python `str.upper` on the hex digits the
filter retains), require a nonempty all-hex result (`re.fullmatch`) of
length 8, 16 or 40. -/
def normalize_fingerprint (fp : List Char) : Except String (List Char) :=
  if fp = [] then .ok []
  else
    let s := (fp.filter isHexDigit).map Char.toUpper
    if ¬ (s ≠ [] ∧ s.all isUpperHexDigit) then
      .error "Fingerprint contains invalid characters"
    else if ¬ (s.length = 8 ∨ s.length = 16 ∨ s.length = 40) then
      .error "Fingerprint must be 8, 16, or 40 hex characters (short, long, or full fingerprint)"
    else .ok s

/-- The `FN:` field line of `build_vcard`. -/
def fnLine (full_name : List Char) : List Char := str "FN:" ++ escape_vcard_value full_name

/-- The `N:` field line `f"N:{family};{given_e};;;"` of `build_vcard`. -/
def nLine (surname given : List Char) : List Char :=
  str "N:" ++ escape_vcard_value surname ++ str ";" ++ escape_vcard_value given ++ str ";;;"

/-- The `TEL` field of `build_vcard`, emitted when the escaped phone is truthy. -/
def telBlock (phone : List Char) : List (List Char) :=
  if escape_vcard_value phone ≠ [] then [str "TEL;TYPE=CELL:" ++ escape_vcard_value phone] else []

/-- The `EMAIL` field of `build_vcard`, emitted when the escaped email is truthy. -/
def emailBlock (email : List Char) : List (List Char) :=
  if escape_vcard_value email ≠ [] then
    [str "EMAIL;TYPE=INTERNET:" ++ escape_vcard_value email] else []

/-- `github_url` as computed by `build_vcard`: empty when no handle is given,
the handle itself when it is already an absolute http(s) URL, otherwise the
handle prefixed with `https://github.com/`. -/
def github_url_of (github : List Char) : List Char :=
  if github = [] then []
  else if is_http_url github then github
  else str "https://github.com/" ++ github

/-- The `URL` field of `build_vcard`, emitted when `github_url` is truthy. -/
def urlBlock (github : List Char) : List (List Char) :=
  if github_url_of github ≠ [] then
    [str "URL:" ++ escape_vcard_value (github_url_of github)] else []

/-- The `X-SOCIALPROFILE` field of `build_vcard`, emitted when a handle is given. -/
def socialBlock (github : List Char) : List (List Char) :=
  if github ≠ [] then
    [str "X-SOCIALPROFILE;TYPE=github:" ++ escape_vcard_value (github_url_of github)] else []

/-- The Apple labeled-link item pair of `build_vcard`, emitted when a handle is given. -/
def appleBlock (github : List Char) : List (List Char) :=
  if github ≠ [] then
    [str "item1.URL;type=pref:" ++ escape_vcard_value (github_url_of github),
     str "item1.X-ABLabel:GitHub"] else []

/-- The `ADR` field of `build_vcard`, emitted when escaped city or country is truthy. -/
def adrBlock (city country : List Char) : List (List Char) :=
  if escape_vcard_value city ≠ [] ∨ escape_vcard_value country ≠ [] then
    [str "ADR:;;;" ++ escape_vcard_value city ++ str ";;" ++ escape_vcard_value country] else []

/-- The `NOTE` field of `build_vcard`, emitted when the escaped note is truthy. -/
def noteBlock (note : List Char) : List (List Char) :=
  if escape_vcard_value note ≠ [] then [str "NOTE:" ++ escape_vcard_value note] else []

/-- The `PHOTO` field of `build_vcard` (after URI validation succeeded). -/
def avatarBlock (avatar_uri : List Char) : List (List Char) :=
  if avatar_uri ≠ [] then [str "PHOTO;VALUE=URI:" ++ escape_vcard_value avatar_uri] else []

/-- The `KEY` field of `build_vcard` (after URI validation succeeded). -/
def keyBlock (pgp_key_uri : List Char) : List (List Char) :=
  if pgp_key_uri ≠ [] then [str "KEY;VALUE=URI:" ++ escape_vcard_value pgp_key_uri] else []

/-- The `X-PGP-FP` field of `build_vcard`, emitted when a fingerprint is given. -/
def fpBlock (pgp_fingerprint : List Char) : List (List Char) :=
  if pgp_fingerprint ≠ [] then [str "X-PGP-FP:" ++ escape_vcard_value pgp_fingerprint] else []

/-- The `NICKNAME` / `X-PREFERRED-NAME` pair of `build_vcard`. -/
def nickBlock (preferred_name : List Char) : List (List Char) :=
  if preferred_name ≠ [] then
    [str "NICKNAME:" ++ escape_vcard_value preferred_name,
     str "X-PREFERRED-NAME:" ++ escape_vcard_value preferred_name] else []

/-- The `lines` list built by `build_vcard` before joining and folding.  The
source appends fields to a list and raises `ValueError` at the avatar / PGP
URI checks; since list construction is pure, this is the same function with
the two checks, in source order, hoisted to the front. -/
def vcard_lines (full_name given surname preferred_name email phone github city country note
    avatar_uri pgp_key_uri pgp_fingerprint : List Char) : Except String (List (List Char)) :=
  if avatar_uri ≠ [] ∧ ¬ is_http_url avatar_uri then
    .error "Avatar must be an http(s) URL when provided. Inline embedding is disabled."
  else if pgp_key_uri ≠ [] ∧ ¬ is_http_url pgp_key_uri then
    .error "PGP key URI must be an http(s) URL when provided."
  else
    .ok ([str "BEGIN:VCARD", str "VERSION:3.0", fnLine full_name, nLine surname given]
      ++ telBlock phone ++ emailBlock email
      ++ urlBlock github ++ socialBlock github ++ appleBlock github
      ++ adrBlock city country ++ noteBlock note
      ++ avatarBlock avatar_uri ++ keyBlock pgp_key_uri ++ fpBlock pgp_fingerprint
      ++ nickBlock preferred_name ++ [str "END:VCARD"])

/-- The final assembly of `build_vcard`:
`joined = line_ending.join(lines)`, re-split on `line_ending`, fold every
logical line at width 75, re-join and append a trailing terminator. -/
def assemble (line_ending : List Char) (ls : List (List Char)) : List Char :=
  let joined := List.intercalate line_ending ls
  let folded := (pySplit line_ending joined).map (fun L => fold_vcard_line L 75 line_ending)
  List.intercalate line_ending folded ++ line_ending

/-- `build_vcard` from the source: build the field lines (raising on invalid
avatar / PGP-key URIs), then join, fold, and append a trailing terminator. -/
def build_vcard (full_name given surname preferred_name email phone github city country note
    avatar_uri pgp_key_uri pgp_fingerprint line_ending : List Char) : Except String (List Char) :=
  match vcard_lines full_name given surname preferred_name email phone github city country note
      avatar_uri pgp_key_uri pgp_fingerprint with
  | .error e => .error e
  | .ok ls => .ok (assemble line_ending ls)

/-- `len(s.encode("utf-8"))`. -/
def utf8Length (s : List Char) : Nat := (s.map Char.utf8Size).sum

/-- `approx_size_warn_and_check` from the source.  The first component
records whether the non-fatal oversize warning is printed; the second is
`some length` when `ValueError` is raised (`length > MAX_QR_BYTES`), with
the measured byte length it reports. -/
def approx_size_warn_and_check (s : List Char) : Bool × Option Nat :=
  let length := utf8Length s
  (decide (length > WARN_QR_BYTES), if length > MAX_QR_BYTES then some length else none)

/-- The Python whitespace class used by `str.strip()` / `str.split()`. -/
def pyWhitespace (c : Char) : Bool :=
  c = ' ' || c = '\t' || c = '\n' || c = '\r' || c = '\x0b' || c = '\x0c'

/-- Python `s.strip()`. -/
def pyStrip (s : List Char) : List Char :=
  ((s.dropWhile pyWhitespace).reverse.dropWhile pyWhitespace).reverse

/-- Python `s.split()` (split on whitespace runs, no empty tokens). -/
def pyWords (s : List Char) : List (List Char) :=
  (List.splitOnP pyWhitespace s).filter (· ≠ [])

/-- The given/surname fallback of `main`:
```
given = args.given.strip(); surname = args.surname.strip()
if not (given or surname):
    name_tokens = args.name.strip().split()
    if len(name_tokens) >= 2:
        surname = name_tokens[-1]; given = " ".join(name_tokens[:-1])
    else:
        given = args.name.strip(); surname = ""
```
-/
def resolve_given_surname (nameArg given surname : List Char) : List Char × List Char :=
  let g := pyStrip given
  let s := pyStrip surname
  if g = [] ∧ s = [] then
    let toks := pyWords (pyStrip nameArg)
    if 2 ≤ toks.length then
      (List.intercalate [' '] toks.dropLast, toks.getLastD [])
    else (pyStrip nameArg, [])
  else (g, s)

/-- The formatted-name resolution of `main` (`given`, `surname` are the
already-resolved values):
```
fn = args.name.strip()
if not fn:
    if args.preferred_name:
        fn = args.preferred_name.strip()
        if surname: fn = f"{fn} {surname}"
    else:
        fn = " ".join([p for p in (given, surname) if p]).strip()
```
-/
def resolve_fn (nameArg preferred_name given surname : List Char) : List Char :=
  let fn := pyStrip nameArg
  if fn = [] then
    if preferred_name ≠ [] then
      let f := pyStrip preferred_name
      if surname ≠ [] then f ++ [' '] ++ surname else f
    else pyStrip (List.intercalate [' '] ([given, surname].filter (· ≠ [])))
  else fn

/-- Specification-side single left-to-right pass of the escaper on one
character (used to state what the composition of the four `replace` passes
does). -/
def escChar (a : Char) : List Char :=
  if a = '\\' then ['\\', '\\']
  else if a = ';' then ['\\', ';']
  else if a = ',' then ['\\', ',']
  else if a = '\n' then ['\\', 'n']
  else [a]

/-- Specification-side single left-to-right escaping pass: a CRLF pair
becomes `\n`, and every other character is escaped independently. -/
def escSpec : List Char → List Char
  | [] => []
  | [a] => escChar a
  | a :: b :: rest =>
    if a = '\r' ∧ b = '\n' then '\\' :: 'n' :: escSpec rest
    else escChar a ++ escSpec (b :: rest)

/-- Checks that a string parses as a sequence of escape pairs `\\`, `\;`,
`\,`, `\n` and ordinary characters, with no unescaped backslash, semicolon
or comma and no literal LF anywhere. -/
def wellEscapedNoLF : List Char → Bool
  | [] => true
  | a :: rest =>
    if a = '\\' then
      match rest with
      | [] => false
      | c :: rest' => (c = '\\' || c = ';' || c = ',' || c = 'n') && wellEscapedNoLF rest'
    else
      !(a = ';' || a = ',' || a = '\n') && wellEscapedNoLF rest

/-- The physical segments produced by folding one logical line: the line
itself when it fits, otherwise the width-sized chunks with the single-space
continuation prefix on every chunk beyond the first. -/
def foldSegs (width : Nat) (line : List Char) : List (List Char) :=
  if line.length ≤ width then [line]
  else
    match chunksF width line with
    | [] => [[]]
    | c :: cs => c :: cs.map (fun s => ' ' :: s)

/-- The first three (single-character) replacement passes of the escaper. -/
def escStage123 (s : List Char) : List Char :=
  pyReplace [','] ['\\', ','] (pyReplace [';'] ['\\', ';'] (pyReplace ['\\'] ['\\', '\\'] s))

/-- What the first three passes emit for one input character. -/
def escB (a : Char) : List Char :=
  if a = '\\' then ['\\', '\\']
  else if a = ';' then ['\\', ';']
  else if a = ',' then ['\\', ',']
  else [a]

/-- No occurrence of `pat` starts strictly inside the `c` part of `c ++ tail`. -/
def NoMatchWithin (pat c tail : List Char) : Prop :=
  ∀ i, i < c.length → ¬ pat <+: (c ++ tail).drop i

/-- `c` is a clean segment for separator `sep`: no occurrence of `sep` starts
inside `c`, whatever follows `c`, as long as what follows is empty or starts
with `sep` itself. -/
def CleanSeg (sep c : List Char) : Prop :=
  ∀ tail, (tail = [] ∨ sep <+: tail) → NoMatchWithin sep c tail

/-! ### Fuel irrelevance and unfolding equations for the fueled scanners -/

theorem pyReplaceGo_fuel (pat rep : List Char) :
    ∀ f₁ f₂ s, s.length ≤ f₁ → s.length ≤ f₂ →
      pyReplaceGo pat rep f₁ s = pyReplaceGo pat rep f₂ s := by
  intro f₁
  induction f₁ with
  | zero =>
    intro f₂ s h₁ _
    have hs : s = [] := List.eq_nil_of_length_eq_zero (Nat.le_zero.mp h₁)
    subst hs; cases f₂ <;> rfl
  | succ f ih =>
    intro f₂ s h₁ h₂
    cases s with
    | nil => cases f₂ <;> rfl
    | cons a rest =>
      cases f₂ with
      | zero => simp at h₂
      | succ f' =>
        simp only [pyReplaceGo]
        by_cases hc : pat ≠ [] ∧ pat.isPrefixOf (a :: rest)
        · rw [if_pos hc, if_pos hc]
          have hpat : 1 ≤ pat.length := by
            cases pat
        
            · exact absurd rfl hc.1
            · simp
          congr 1
          apply ih
          · simp only [List.length_drop, List.length_cons] at *
            omega
          · simp only [List.length_drop, List.length_cons] at *
            omega
        · rw [if_neg hc, if_neg hc]
          simp only [List.length_cons] at h₁ h₂
          rw [ih f' rest (by omega) (by omega)]

theorem pyReplace_nil (pat rep : List Char) : pyReplace pat rep [] = [] := rfl

theorem pyReplace_cons (pat rep : List Char) (a : Char) (rest : List Char) :
    pyReplace pat rep (a :: rest) =
      if pat ≠ [] ∧ pat.isPrefixOf (a :: rest) then
        rep ++ pyReplace pat rep ((a :: rest).drop pat.length)
      else a :: pyReplace pat rep rest := by
  show pyReplaceGo pat rep (a :: rest).length (a :: rest) = _
  simp only [List.length_cons, pyReplaceGo]
  by_cases hc : pat ≠ [] ∧ pat.isPrefixOf (a :: rest)
  · rw [if_pos hc, if_pos hc]
    have hpat : 1 ≤ pat.length := by
      cases pat
      · exact absurd rfl hc.1
      · simp
    congr 1
    apply pyReplaceGo_fuel
    · simp only [List.length_drop, List.length_cons]; omega
    · exact Nat.le_refl _
  · rw [if_neg hc, if_neg hc]
    rfl

theorem pySplitGo_fuel (pat : List Char) :
    ∀ f₁ f₂ s, s.length ≤ f₁ → s.length ≤ f₂ →
      pySplitGo pat f₁ s = pySplitGo pat f₂ s := by
  intro f₁
  induction f₁ with
  | zero =>
    intro f₂ s h₁ _
    have hs : s = [] := List.eq_nil_of_length_eq_zero (Nat.le_zero.mp h₁)
    subst hs; cases f₂ <;> rfl
  | succ f ih =>
    intro f₂ s h₁ h₂
    cases s with
    | nil => cases f₂ <;> rfl
    | cons a rest =>
      cases f₂ with
      | zero => simp at h₂
      | succ f' =>
        simp only [pySplitGo]
        by_cases hc : pat ≠ [] ∧ pat.isPrefixOf (a :: rest)
        · rw [if_pos hc, if_pos hc]
          have hpat : 1 ≤ pat.length := by
            cases pat
            · exact absurd rfl hc.1
            · simp
          congr 1
          apply ih
          · simp only [List.length_drop, List.length_cons] at *
            omega
          · simp only [List.length_drop, List.length_cons] at *
            omega
        · rw [if_neg hc, if_neg hc]
          simp only [List.length_cons] at h₁ h₂
          rw [ih f' rest (by omega) (by omega)]

theorem pySplit_nil (pat : List Char) : pySplit pat [] = [[]] := rfl

theorem pySplit_ne_nil (pat s : List Char) : pySplit pat s ≠ [] := by
  have : ∀ f t, pySplitGo pat f t ≠ [] := by
    intro f
    induction f with
    | zero => intro t; cases t <;> simp [pySplitGo]
    | succ f ih =>
      intro t
      cases t with
      | nil => simp [pySplitGo]
      | cons a rest =>
        simp only [pySplitGo]
        by_cases hc : pat ≠ [] ∧ pat.isPrefixOf (a :: rest)
        · rw [if_pos hc]; simp
        · rw [if_neg hc]
          cases h : pySplitGo pat f rest <;> simp
  exact this _ _

theorem pySplit_cons (pat : List Char) (a : Char) (rest : List Char) :
    pySplit pat (a :: rest) =
      if pat ≠ [] ∧ pat.isPrefixOf (a :: rest) then
        [] :: pySplit pat ((a :: rest).drop pat.length)
      else
        match pySplit pat rest with
        | [] => [[a]]
        | s :: ss => (a :: s) :: ss := by
  show pySplitGo pat (a :: rest).length (a :: rest) = _
  simp only [List.length_cons, pySplitGo]
  by_cases hc : pat ≠ [] ∧ pat.isPrefixOf (a :: rest)
  · rw [if_pos hc, if_pos hc]
    have hpat : 1 ≤ pat.length := by
      cases pat
      · exact absurd rfl hc.1
      · simp
    congr 1
    apply pySplitGo_fuel
    · simp only [List.length_drop, List.length_cons]; omega
    · exact Nat.le_refl _
  · rw [if_neg hc, if_neg hc]
    rfl

theorem chunksGo_fuel :
    ∀ f₁ f₂ w s, s.length ≤ f₁ → s.length ≤ f₂ →
      chunksGo f₁ w s = chunksGo f₂ w s := by
  intro f₁
  induction f₁ with
  | zero =>
    intro f₂ w s h₁ _
    have hs : s = [] := List.eq_nil_of_length_eq_zero (Nat.le_zero.mp h₁)
    subst hs; cases f₂ <;> cases w <;> rfl
  | succ f ih =>
    intro f₂ w s h₁ h₂
    cases s with
    | nil => cases f₂ <;> cases w <;> rfl
    | cons a rest =>
      cases f₂ with
      | zero => simp at h₂
      | succ f' =>
        cases w with
        | zero => rfl
        | succ w =>
          simp only [chunksGo]
          congr 1
          apply ih
          · simp only [List.length_drop, List.length_cons] at *
            omega
          · simp only [List.length_drop, List.length_cons] at *
            omega

theorem chunksF_nil (w : Nat) : chunksF w [] = [] := rfl

theorem chunksF_cons (w : Nat) (a : Char) (rest : List Char) :
    chunksF (w+1) (a :: rest) =
      (a :: rest).take (w+1) :: chunksF (w+1) ((a :: rest).drop (w+1)) := by
  show chunksGo (a :: rest).length (w+1) (a :: rest) = _
  simp only [List.length_cons, chunksGo]
  congr 1
  apply chunksGo_fuel
  · simp only [List.length_drop, List.length_cons]; omega
  · exact Nat.le_refl _

/-! ### Basic facts about `List.intercalate` and the chunking function -/

theorem intercalate_nil_list (sep : List Char) : List.intercalate sep [] = [] := rfl

theorem intercalate_single (sep x : List Char) : List.intercalate sep [x] = x := by
  simp [List.intercalate]

theorem intercalate_cons₂ (sep x y : List Char) (l : List (List Char)) :
    List.intercalate sep (x :: y :: l) = x ++ sep ++ List.intercalate sep (y :: l) := by
  simp [List.intercalate, List.intersperse_cons₂, List.append_assoc]

theorem chunksF_join (w : Nat) :
    ∀ n s, s.length ≤ n → (chunksF (w+1) s).flatten = s := by
  intro n
  induction n with
  | zero =>
    intro s h
    have hs : s = [] := List.eq_nil_of_length_eq_zero (Nat.le_zero.mp h)
    subst hs; rfl
  | succ n ih =>
    intro s h
    cases s with
    | nil => rfl
    | cons a rest =>
      rw [chunksF_cons, List.flatten_cons, ih]
      · exact List.take_append_drop _ _
      · simp only [List.length_drop, List.length_cons] at *
        omega

theorem chunksF_length_le (w : Nat) :
    ∀ n s, s.length ≤ n → ∀ c ∈ chunksF (w+1) s, c.length ≤ w+1 := by
  intro n
  induction n with
  | zero =>
    intro s h
    have hs : s = [] := List.eq_nil_of_length_eq_zero (Nat.le_zero.mp h)
    subst hs; intro c hc; simp [chunksF_nil] at hc
  | succ n ih =>
    intro s h c hc
    cases s with
    | nil => simp [chunksF_nil] at hc
    | cons a rest =>
      rw [chunksF_cons] at hc
      rcases List.mem_cons.mp hc with h1 | h2
      · subst h1; rw [List.length_take]; omega
      · apply ih ((a :: rest).drop (w+1)) _ c h2
        simp only [List.length_drop, List.length_cons] at *
        omega

theorem chunksF_ne_nil_mem (w : Nat) :
    ∀ n s, s.length ≤ n → ∀ c ∈ chunksF (w+1) s, c ≠ [] := by
  intro n
  induction n with
  | zero =>
    intro s h
    have hs : s = [] := List.eq_nil_of_length_eq_zero (Nat.le_zero.mp h)
    subst hs; intro c hc; simp [chunksF_nil] at hc
  | succ n ih =>
    intro s h c hc
    cases s with
    | nil => simp [chunksF_nil] at hc
    | cons a rest =>
      rw [chunksF_cons] at hc
      rcases List.mem_cons.mp hc with h1 | h2
      · subst h1; simp
      · apply ih ((a :: rest).drop (w+1)) _ c h2
        simp only [List.length_drop, List.length_cons] at *
        omega

theorem chunksF_infixOf (w : Nat) :
    ∀ n s, s.length ≤ n → ∀ c ∈ chunksF (w+1) s, c <:+: s := by
  intro n
  induction n with
  | zero =>
    intro s h
    have hs : s = [] := List.eq_nil_of_length_eq_zero (Nat.le_zero.mp h)
    subst hs; intro c hc; simp [chunksF_nil] at hc
  | succ n ih =>
    intro s h c hc
    cases s with
    | nil => simp [chunksF_nil] at hc
    | cons a rest =>
      rw [chunksF_cons] at hc
      rcases List.mem_cons.mp hc with h1 | h2
      · subst h1
        exact List.IsPrefix.isInfix ⟨(a :: rest).drop (w+1), List.take_append_drop _ _⟩
      · have hdrop : c <:+: (a :: rest).drop (w+1) := by
          apply ih ((a :: rest).drop (w+1)) _ c h2
          simp only [List.length_drop, List.length_cons] at *
          omega
        exact hdrop.trans (List.IsSuffix.isInfix ⟨(a :: rest).take (w+1), List.take_append_drop _ _⟩)

theorem chunksF_eq_nil_iff (w : Nat) (s : List Char) :
    chunksF (w+1) s = [] ↔ s = [] := by
  constructor
  · intro h
    cases s with
    | nil => rfl
    | cons a rest => rw [chunksF_cons] at h; simp at h
  · intro h; subst h; rfl

/-! ### Scanning an intercalated list of clean segments -/

theorem pyReplace_append_of_noMatch (pat rep : List Char) :
    ∀ c tail, NoMatchWithin pat c tail →
      pyReplace pat rep (c ++ tail) = c ++ pyReplace pat rep tail := by
  intro c
  induction c with
  | nil => intro tail _; rfl
  | cons a c' ih =>
    intro tail hnm
    rw [List.cons_append, pyReplace_cons]
    have h0 : ¬ pat <+: (a :: (c' ++ tail)) := by
      have := hnm 0 (by simp)
      simpa using this
    have hnm' : NoMatchWithin pat c' tail := by
      intro i hi
      have := hnm (i+1) (by simp; omega)
      simpa using this
    rw [if_neg]
    · rw [ih tail hnm']
      simp
    · rintro ⟨-, hpre⟩
      exact h0 (List.isPrefixOf_iff_prefix.mp hpre)

theorem pyReplace_pat_head (pat rep : List Char) (hpat : pat ≠ []) (xs : List Char) :
    pyReplace pat rep (pat ++ xs) = rep ++ pyReplace pat rep xs := by
  cases pat with
  | nil => exact absurd rfl hpat
  | cons p pext =>
    rw [List.cons_append, pyReplace_cons, if_pos]
    · rw [show ((p :: (pext ++ xs)).drop (p :: pext).length) = xs by
        simp [List.drop_append_of_le_length]]
    · exact ⟨by simp, List.isPrefixOf_iff_prefix.mpr (by simp)⟩

theorem pySplit_append_of_noMatch (pat : List Char) :
    ∀ c tail s ss, NoMatchWithin pat c tail → pySplit pat tail = s :: ss →
      pySplit pat (c ++ tail) = (c ++ s) :: ss := by
  intro c
  induction c with
  | nil => intro tail s ss _ h; simpa using h
  | cons a c' ih =>
    intro tail s ss hnm hsplit
    rw [List.cons_append, pySplit_cons]
    have h0 : ¬ pat <+: (a :: (c' ++ tail)) := by
      have := hnm 0 (by simp)
      simpa using this
    have hnm' : NoMatchWithin pat c' tail := by
      intro i hi
      have := hnm (i+1) (by simp; omega)
      simpa using this
    rw [if_neg]
    · rw [ih tail s ss hnm' hsplit]
      simp
    · rintro ⟨-, hpre⟩
      exact h0 (List.isPrefixOf_iff_prefix.mp hpre)

theorem pySplit_pat_head (pat : List Char) (hpat : pat ≠ []) (xs : List Char) :
    pySplit pat (pat ++ xs) = [] :: pySplit pat xs := by
  cases pat with
  | nil => exact absurd rfl hpat
  | cons p pext =>
    rw [List.cons_append, pySplit_cons, if_pos]
    · rw [show ((p :: (pext ++ xs)).drop (p :: pext).length) = xs by
        simp [List.drop_append_of_le_length]]
    · exact ⟨by simp, List.isPrefixOf_iff_prefix.mpr (by simp)⟩

theorem pyReplace_remove_intercalate (sep : List Char) (hsep : sep ≠ []) :
    ∀ segs, segs ≠ [] → (∀ c ∈ segs, CleanSeg sep c) →
      pyReplace sep [] (List.intercalate sep segs) = segs.flatten := by
  intro segs
  induction segs with
  | nil => intro h; exact absurd rfl h
  | cons c rest ih =>
    intro _ hclean
    cases rest with
    | nil =>
      rw [intercalate_single]
      have : pyReplace sep [] (c ++ []) = c ++ pyReplace sep [] [] :=
        pyReplace_append_of_noMatch sep [] c []
          (hclean c (by simp) [] (Or.inl rfl))
      simpa [pyReplace_nil] using this
    | cons d rest' =>
      rw [intercalate_cons₂, List.append_assoc,
        pyReplace_append_of_noMatch sep [] c (sep ++ List.intercalate sep (d :: rest'))
          (hclean c (by simp) _ (Or.inr (List.prefix_append _ _))),
        pyReplace_pat_head sep [] hsep,
        ih (by simp) (fun x hx => hclean x (List.mem_cons_of_mem _ hx))]
      simp

theorem pySplit_intercalate (sep : List Char) (hsep : sep ≠ []) :
    ∀ segs, segs ≠ [] → (∀ c ∈ segs, CleanSeg sep c) →
      pySplit sep (List.intercalate sep segs) = segs := by
  intro segs
  induction segs with
  | nil => intro h; exact absurd rfl h
  | cons c rest ih =>
    intro _ hclean
    cases rest with
    | nil =>
      rw [intercalate_single]
      have : pySplit sep (c ++ []) = (c ++ []) :: [] :=
        pySplit_append_of_noMatch sep c [] [] []
          (hclean c (by simp) [] (Or.inl rfl)) (pySplit_nil sep)
      simpa using this
    | cons d rest' =>
      rw [intercalate_cons₂, List.append_assoc]
      have hrest : pySplit sep (List.intercalate sep (d :: rest')) = d :: rest' :=
        ih (by simp) (fun x hx => hclean x (List.mem_cons_of_mem _ hx))
      have htailsplit : pySplit sep (sep ++ List.intercalate sep (d :: rest')) =
          [] :: d :: rest' := by
        rw [pySplit_pat_head sep hsep, hrest]
      have := pySplit_append_of_noMatch sep c (sep ++ List.intercalate sep (d :: rest'))
        [] (d :: rest')
        (hclean c (by simp) _ (Or.inr (List.prefix_append _ _))) htailsplit
      simpa using this

/-! ### Discharging `CleanSeg` for the concrete separators -/

theorem noMatchWithin_of_head_notMem (p : Char) (pext : List Char) :
    ∀ c tail, p ∉ c → NoMatchWithin (p :: pext) c tail := by
  intro c
  induction c with
  | nil => intro tail _ i hi; simp at hi
  | cons a c' ih =>
    intro tail hmem i hi
    cases i with
    | zero =>
      intro hpre
      rw [List.cons_append, List.drop_zero] at hpre
      have : p = a := (List.cons_prefix_cons.mp hpre).1
      exact hmem (this ▸ List.mem_cons_self _ _)
    | succ i =>
      intro hpre
      rw [List.cons_append, List.drop_succ_cons] at hpre
      exact ih tail (fun h => hmem (List.mem_cons_of_mem _ h)) i
        (by simp only [List.length_cons] at hi; omega) hpre

theorem cleanSeg_of_head_notMem (p : Char) (pext c : List Char) (hmem : p ∉ c) :
    CleanSeg (p :: pext) c :=
  fun tail _ => noMatchWithin_of_head_notMem p pext c tail hmem

theorem cleanSeg_crlf (pext : List Char) :
    ∀ c, ¬ ['\r', '\n'] <:+: c → CleanSeg ('\r' :: '\n' :: pext) c := by
  intro c
  induction c with
  | nil => intro _ tail _ i hi; simp at hi
  | cons a c' ih =>
    intro hinf tail htail i hi
    cases i with
    | zero =>
      intro hpre
      rw [List.cons_append, List.drop_zero] at hpre
      have h1 : '\r' = a := (List.cons_prefix_cons.mp hpre).1
      have h2 : '\n' :: pext <+: c' ++ tail := (List.cons_prefix_cons.mp hpre).2
      cases c' with
      | nil =>
        rw [List.nil_append] at h2
        rcases htail with h | h
        · subst h; simp at h2
        · rcases h with ⟨t1, ht1⟩
          rcases h2 with ⟨t2, ht2⟩
          rw [← ht1] at ht2
          rw [List.cons_append, List.cons_append] at ht2
          exact absurd (List.cons.inj ht2).1 (by decide)
      | cons b c'' =>
        rw [List.cons_append] at h2
        have hb : '\n' = b := (List.cons_prefix_cons.mp h2).1
        apply hinf
        rw [← h1, ← hb]
        exact ⟨[], c'', rfl⟩
    | succ i =>
      intro hpre
      rw [List.cons_append, List.drop_succ_cons] at hpre
      exact ih (fun h => hinf (List.infix_cons h)) tail htail i
        (by simp only [List.length_cons] at hi; omega) hpre

theorem not_crlf_infix_of_no_lf (c : List Char) (h : '\n' ∉ c) : ¬ ['\r', '\n'] <:+: c := by
  intro hinf
  exact h (hinf.sublist.subset (by simp))

theorem lf_infix_iff_mem (c : List Char) : ['\n'] <:+: c ↔ '\n' ∈ c := by
  constructor
  · intro hinf
    exact hinf.sublist.subset (by simp)
  · intro hmem
    rcases List.append_of_mem hmem with ⟨s, t, rfl⟩
    exact ⟨s, t, by simp⟩

/-! ### Folding lemmas -/

theorem fold_short (line : List Char) (w : Nat) (t : List Char) (h : line.length ≤ w) :
    fold_vcard_line line w t = line := by
  simp [fold_vcard_line, h]

theorem fold_long (line : List Char) (w : Nat) (t : List Char) (h : ¬ line.length ≤ w) :
    fold_vcard_line line w t = List.intercalate (t ++ [' ']) (chunksF w line) := by
  simp [fold_vcard_line, h]

theorem intercalate_cons_sep_space (t : List Char) :
    ∀ cs c, List.intercalate (t ++ [' ']) (c :: cs) =
      List.intercalate t (c :: cs.map (fun s => ' ' :: s)) := by
  intro cs
  induction cs with
  | nil => intro c; rfl
  | cons d cs ih =>
    intro c
    rw [intercalate_cons₂, ih d, List.map_cons, intercalate_cons₂]
    cases hm : cs.map (fun s => ' ' :: s) with
    | nil =>
      rw [intercalate_single, intercalate_single]
      simp [List.append_assoc]
    | cons e es =>
      rw [intercalate_cons₂, intercalate_cons₂]
      simp [List.append_assoc]

theorem fold_eq_intercalate_foldSegs (w : Nat) (t line : List Char) :
    fold_vcard_line line (w+1) t = List.intercalate t (foldSegs (w+1) line) := by
  by_cases h : line.length ≤ w+1
  · rw [fold_short line (w+1) t h]
    unfold foldSegs
    rw [if_pos h, intercalate_single]
  · rw [fold_long line (w+1) t h]
    unfold foldSegs
    rw [if_neg h]
    cases hm : chunksF (w+1) line with
    | nil =>
      exact absurd ((chunksF_eq_nil_iff w line).mp hm)
        (by intro h0; subst h0; simp at h)
    | cons c cs => exact intercalate_cons_sep_space t cs c

theorem foldSegs_ne_nil (w : Nat) (line : List Char) : foldSegs w line ≠ [] := by
  unfold foldSegs
  by_cases h : line.length ≤ w
  · rw [if_pos h]; simp
  · rw [if_neg h]
    cases chunksF w line <;> simp

/-- Both concrete terminators behave as clean separators on a terminator-free
segment, whatever follows the separator in the pattern. -/
theorem cleanSeg_term (t : List Char) (ht : t = CRLF ∨ t = LF) (ext : List Char)
    (c : List Char) (hc : ¬ t <:+: c) : CleanSeg (t ++ ext) c := by
  rcases ht with rfl | rfl
  · exact cleanSeg_crlf ext c hc
  · exact cleanSeg_of_head_notMem '\n' ext c (fun hm => hc ((lf_infix_iff_mem c).mpr hm))

theorem no_term_infix_cons_space (t : List Char) (ht : t = CRLF ∨ t = LF)
    (c : List Char) (hc : ¬ t <:+: c) : ¬ t <:+: (' ' :: c) := by
  intro h
  rcases List.infix_cons_iff.mp h with hpre | hinf
  · rcases ht with rfl | rfl
    · exact absurd (List.cons_prefix_cons.mp hpre).1 (by decide)
    · exact absurd (List.cons_prefix_cons.mp hpre).1 (by decide)
  · exact hc hinf

theorem term_ne_nil (t : List Char) (ht : t = CRLF ∨ t = LF) : t ≠ [] := by
  rcases ht with rfl | rfl <;> simp [CRLF, LF]

/-- Every segment of a folded terminator-free line is terminator-free. -/
theorem foldSegs_no_term (w : Nat) (t line : List Char) (ht : t = CRLF ∨ t = LF)
    (hline : ¬ t <:+: line) : ∀ seg ∈ foldSegs (w+1) line, ¬ t <:+: seg := by
  intro seg hseg
  unfold foldSegs at hseg
  by_cases h : line.length ≤ w+1
  · rw [if_pos h] at hseg
    rcases List.mem_singleton.mp hseg with rfl
    exact hline
  · rw [if_neg h] at hseg
    have hchunk : ∀ c ∈ chunksF (w+1) line, ¬ t <:+: c := by
      intro c hc htc
      exact hline (htc.trans (chunksF_infixOf w line.length line (Nat.le_refl _) c hc))
    cases hm : chunksF (w+1) line with
    | nil =>
      exact absurd ((chunksF_eq_nil_iff w line).mp hm)
        (by intro h0; subst h0; simp at h)
    | cons c cs =>
      rw [hm] at hseg
      rcases List.mem_cons.mp hseg with rfl | hmem
      · exact hchunk seg (by rw [hm]; exact List.mem_cons_self _ _)
      · rcases List.mem_map.mp hmem with ⟨d, hd, rfl⟩
        exact no_term_infix_cons_space t ht d
          (hchunk d (by rw [hm]; exact List.mem_cons_of_mem _ hd))

/-- C2: for every logical line `L` containing no terminator, width `w ≥ 1` and
terminator `t` (CRLF or LF): if `len(L) ≤ w` then `Fold(L, w, t) = L`
unchanged; every segment of `Fold(L, w, t)`, after removing the single-space
continuation prefix from segments beyond the first, has length `≤ w`;
replacing every occurrence of `t` followed by a single space in
`Fold(L, w, t)` with the empty string recovers `L` exactly; and `Fold` is
idempotent when re-applied to any of its own already-short segments. -/
theorem fold_vcard_line_spec (L : List Char) (w : Nat) (t : List Char)
    (ht : t = CRLF ∨ t = LF) (hw : 1 ≤ w) (hL : ¬ t <:+: L) :
    (L.length ≤ w → fold_vcard_line L w t = L) ∧
    pySplit t (fold_vcard_line L w t) = foldSegs w L ∧
    (∀ s₀ ss, foldSegs w L = s₀ :: ss → s₀.length ≤ w ∧
      ∀ seg ∈ ss, seg.head? = some ' ' ∧ (seg.drop 1).length ≤ w) ∧
    pyReplace (t ++ [' ']) [] (fold_vcard_line L w t) = L ∧
    (∀ seg ∈ foldSegs w L, seg.length ≤ w → fold_vcard_line seg w t = seg) := by
  obtain ⟨w', rfl⟩ : ∃ w', w = w' + 1 := ⟨w - 1, by omega⟩
  have hclean : ∀ ext c, ¬ t <:+: c → CleanSeg (t ++ ext) c := by
    intro ext c hc
    exact cleanSeg_term t ht ext c hc
  have hchunkfree : ∀ c ∈ chunksF (w'+1) L, ¬ t <:+: c := by
    intro c hc htc
    exact hL (htc.trans (chunksF_infixOf w' L.length L (Nat.le_refl _) c hc))
  refine ⟨fun h => fold_short L (w'+1) t h, ?_, ?_, ?_, ?_⟩
  · rw [fold_eq_intercalate_foldSegs]
    apply pySplit_intercalate t (term_ne_nil t ht) _ (foldSegs_ne_nil (w'+1) L)
    intro c hc
    have := hclean [] c (foldSegs_no_term w' t L ht hL c hc)
    rwa [List.append_nil] at this
  · intro s₀ ss hfs
    unfold foldSegs at hfs
    by_cases h : L.length ≤ w'+1
    · rw [if_pos h] at hfs
      obtain ⟨rfl, rfl⟩ : L = s₀ ∧ [] = ss := by
        have := List.cons.inj hfs
        exact ⟨this.1, this.2⟩
      exact ⟨h, by simp⟩
    · rw [if_neg h] at hfs
      cases hm : chunksF (w'+1) L with
      | nil =>
        exact absurd ((chunksF_eq_nil_iff w' L).mp hm)
          (by intro h0; subst h0; simp at h)
      | cons c cs =>
        rw [hm] at hfs
        obtain ⟨rfl, rfl⟩ : c = s₀ ∧ cs.map (fun s => ' ' :: s) = ss := by
          have := List.cons.inj hfs
          exact ⟨this.1, this.2⟩
        constructor
        · exact chunksF_length_le w' L.length L (Nat.le_refl _) c
            (by rw [hm]; exact List.mem_cons_self _ _)
        · intro seg hseg
          rcases List.mem_map.mp hseg with ⟨d, hd, rfl⟩
          refine ⟨rfl, ?_⟩
          simpa using chunksF_length_le w' L.length L (Nat.le_refl _) d
            (by rw [hm]; exact List.mem_cons_of_mem _ hd)
  · by_cases h : L.length ≤ w'+1
    · rw [fold_short L (w'+1) t h]
      have := pyReplace_remove_intercalate (t ++ [' ']) (by rcases ht with rfl | rfl <;> simp [CRLF, LF])
        [L] (by simp) (by intro c hc; rcases List.mem_singleton.mp hc with rfl; exact hclean [' '] c hL)
      rw [intercalate_single] at this
      simpa using this
    · rw [fold_long L (w'+1) t h]
      have hnil : chunksF (w'+1) L ≠ [] := by
        intro h0
        exact absurd ((chunksF_eq_nil_iff w' L).mp h0)
          (by intro h1; subst h1; simp at h)
      have := pyReplace_remove_intercalate (t ++ [' '])
        (by rcases ht with rfl | rfl <;> simp [CRLF, LF])
        (chunksF (w'+1) L) hnil
        (by intro c hc; exact hclean [' '] c (hchunkfree c hc))
      rw [this, chunksF_join w' L.length L (Nat.le_refl _)]
  · intro seg _ hlen
    exact fold_short seg (w'+1) t hlen

theorem isUpperHexDigit_toUpper (c : Char) (h : isHexDigit c = true) :
    isUpperHexDigit (Char.toUpper c) = true := by
  have hm : c ∈ str "0123456789ABCDEFabcdef" := by
    simpa [isHexDigit, List.contains] using h
  fin_cases hm <;> decide

theorem utf8Length_replicate_a (n : Nat) : utf8Length (List.replicate n 'a') = n := by
  simp [utf8Length, List.map_replicate, List.sum_replicate]
  rw [show ('a'.utf8Size) = 1 by decide, Nat.mul_one]

/-- C3: the Size Validator computes the UTF-8 byte length of the payload;
the non-fatal warning fires exactly when that length exceeds 2000 bytes, and
the check fails (carrying the measured size) exactly when it exceeds 2950
bytes; an over-2000 but at-most-2950 payload warns and returns without
error. -/
theorem approx_size_warn_and_check_spec (s : List Char) :
    ((approx_size_warn_and_check s).1 = true ↔ utf8Length s > WARN_QR_BYTES) ∧
    (utf8Length s > MAX_QR_BYTES → (approx_size_warn_and_check s).2 = some (utf8Length s)) ∧
    (utf8Length s ≤ MAX_QR_BYTES → (approx_size_warn_and_check s).2 = none) ∧
    (WARN_QR_BYTES < utf8Length s ∧ utf8Length s ≤ MAX_QR_BYTES →
      (approx_size_warn_and_check s).1 = true ∧ (approx_size_warn_and_check s).2 = none) := by
  simp only [approx_size_warn_and_check]
  refine ⟨by simp, ?_, ?_, ?_⟩
  · intro h
    rw [if_pos h]
  · intro h
    rw [if_neg (by omega)]
  · intro h
    refine ⟨by simp [h.1], ?_⟩
    rw [if_neg (by simp only [MAX_QR_BYTES] at *; omega)]

/-- C4: for every non-empty fingerprint, `normalize_fingerprint` strips all
non-hexadecimal characters and uppercases the remainder; the result is
returned iff its length is exactly 8, 16 or 40, and any other length
(including the all-non-hex and 7-digit cases) raises
`InvalidFingerprintError` (a `ValueError` in the source). -/
theorem normalize_fingerprint_spec (fp : List Char) (hfp : fp ≠ []) :
    ((((fp.filter isHexDigit).map Char.toUpper).length = 8 ∨
      ((fp.filter isHexDigit).map Char.toUpper).length = 16 ∨
      ((fp.filter isHexDigit).map Char.toUpper).length = 40) →
      normalize_fingerprint fp = .ok ((fp.filter isHexDigit).map Char.toUpper)) ∧
    ((¬ (((fp.filter isHexDigit).map Char.toUpper).length = 8 ∨
      ((fp.filter isHexDigit).map Char.toUpper).length = 16 ∨
      ((fp.filter isHexDigit).map Char.toUpper).length = 40)) →
      ∃ msg, normalize_fingerprint fp = .error msg) := by
  have hall : ((fp.filter isHexDigit).map Char.toUpper).all isUpperHexDigit = true := by
    rw [List.all_eq_true]
    intro x hx
    rcases List.mem_map.mp hx with ⟨c, hc, rfl⟩
    exact isUpperHexDigit_toUpper c (List.of_mem_filter hc)
  constructor
  · intro hlen
    have hne : (fp.filter isHexDigit).map Char.toUpper ≠ [] := by
      intro h0; rw [h0] at hlen; simp at hlen
    simp only [normalize_fingerprint]
    rw [if_neg hfp, if_neg (not_not_intro ⟨hne, hall⟩), if_neg (not_not_intro hlen)]
  · intro hlen
    simp only [normalize_fingerprint]
    rw [if_neg hfp]
    by_cases hc : ((fp.filter isHexDigit).map Char.toUpper) ≠ [] ∧
        ((fp.filter isHexDigit).map Char.toUpper).all isUpperHexDigit
    · exact ⟨_, by rw [if_neg (not_not_intro hc), if_pos hlen]⟩
    · exact ⟨_, by rw [if_pos hc]⟩

theorem normalize_fingerprint_spec_witness :
    (((str "AB:CD:EF:01:23:45:67:89:AB:CD:EF:01:23:45:67:89:AB:CD:EF:01").filter
        isHexDigit).map Char.toUpper).length = 40 ∧
    normalize_fingerprint (str "AB:CD:EF:01:23:45:67:89:AB:CD:EF:01:23:45:67:89:AB:CD:EF:01") =
      .ok (((str "AB:CD:EF:01:23:45:67:89:AB:CD:EF:01:23:45:67:89:AB:CD:EF:01").filter
        isHexDigit).map Char.toUpper) ∧
    (∃ msg, normalize_fingerprint (str "zz") = .error msg) ∧
    (∃ msg, normalize_fingerprint (str "1234567") = .error msg) :=
  ⟨by decide,
   (normalize_fingerprint_spec _ (by decide)).1 (Or.inr (Or.inr (by decide))),
   (normalize_fingerprint_spec (str "zz") (by decide)).2 (by decide),
   (normalize_fingerprint_spec (str "1234567") (by decide)).2 (by decide)⟩

theorem approx_size_warn_and_check_spec_witness :
    utf8Length (List.replicate 3000 'a') > MAX_QR_BYTES ∧
    (approx_size_warn_and_check (List.replicate 3000 'a')).2 = some 3000 ∧
    (WARN_QR_BYTES < utf8Length (List.replicate 2500 'a') ∧
      utf8Length (List.replicate 2500 'a') ≤ MAX_QR_BYTES) ∧
    ((approx_size_warn_and_check (List.replicate 2500 'a')).1 = true ∧
      (approx_size_warn_and_check (List.replicate 2500 'a')).2 = none) := by
  have h3 := utf8Length_replicate_a 3000
  have h2 := utf8Length_replicate_a 2500
  have hgt : utf8Length (List.replicate 3000 'a') > MAX_QR_BYTES := by
    rw [h3]; norm_num [MAX_QR_BYTES]
  have hw : WARN_QR_BYTES < utf8Length (List.replicate 2500 'a') := by
    rw [h2]; norm_num [WARN_QR_BYTES]
  have hm : utf8Length (List.replicate 2500 'a') ≤ MAX_QR_BYTES := by
    rw [h2]; norm_num [MAX_QR_BYTES]
  refine ⟨hgt, ?_, ⟨hw, hm⟩, (approx_size_warn_and_check_spec _).2.2.2 ⟨hw, hm⟩⟩
  rw [(approx_size_warn_and_check_spec _).2.1 hgt, h3]

theorem fold_vcard_line_spec_witness :
    (¬ LF <:+: str "abcdefgh") ∧
    pyReplace (LF ++ [' ']) [] (fold_vcard_line (str "abcdefgh") 3 LF) = str "abcdefgh" ∧
    pySplit LF (fold_vcard_line (str "abcdefgh") 3 LF) = foldSegs 3 (str "abcdefgh") :=
  ⟨by decide,
   (fold_vcard_line_spec (str "abcdefgh") 3 LF (Or.inr rfl) (by decide) (by decide)).2.2.2.1,
   (fold_vcard_line_spec (str "abcdefgh") 3 LF (Or.inr rfl) (by decide) (by decide)).2.1⟩

/-! ### The escaper chain as a single pass -/

theorem pyReplace_single_cons (c : Char) (rep : List Char) (a : Char) (rest : List Char) :
    pyReplace [c] rep (a :: rest) =
      if a = c then rep ++ pyReplace [c] rep rest else a :: pyReplace [c] rep rest := by
  rw [pyReplace_cons]
  have hiff : ([c].isPrefixOf (a :: rest)) = true ↔ c = a := by
    rw [List.isPrefixOf_iff_prefix, List.cons_prefix_cons]
    simp
  by_cases h : a = c
  · rw [if_pos ⟨by simp, hiff.mpr h.symm⟩, if_pos h]
    simp
  · rw [if_neg, if_neg h]
    rintro ⟨-, hp⟩
    exact h (hiff.mp hp).symm

theorem pyReplace_single_append (c : Char) (rep : List Char) :
    ∀ xs ys, pyReplace [c] rep (xs ++ ys) =
      pyReplace [c] rep xs ++ pyReplace [c] rep ys := by
  intro xs ys
  induction xs with
  | nil => simp [pyReplace_nil]
  | cons a xs ih =>
    rw [List.cons_append, pyReplace_single_cons, pyReplace_single_cons]
    by_cases h : a = c
    · rw [if_pos h, if_pos h, ih, List.append_assoc]
    · rw [if_neg h, if_neg h, ih]
      simp

theorem crlf_prefix_iff (a : Char) (rest : List Char) :
    (['\r', '\n'] <+: a :: rest) ↔ a = '\r' ∧ rest.head? = some '\n' := by
  rw [List.cons_prefix_cons]
  constructor
  · rintro ⟨h1, h2⟩
    refine ⟨h1.symm, ?_⟩
    cases rest with
    | nil => simp at h2
    | cons b t =>
      rw [List.cons_prefix_cons] at h2
      simp [h2.1.symm]
  · rintro ⟨rfl, h2⟩
    cases rest with
    | nil => simp at h2
    | cons b t =>
      simp only [List.head?_cons, Option.some.injEq] at h2
      subst h2
      exact ⟨rfl, by rw [List.cons_prefix_cons]; exact ⟨rfl, List.nil_prefix⟩⟩

theorem pyReplace_crlf_match (rep rest : List Char) :
    pyReplace ['\r', '\n'] rep ('\r' :: '\n' :: rest) = rep ++ pyReplace ['\r', '\n'] rep rest := by
  rw [pyReplace_cons, if_pos]
  · simp
  · exact ⟨by simp, List.isPrefixOf_iff_prefix.mpr ((crlf_prefix_iff _ _).mpr ⟨rfl, rfl⟩)⟩

theorem pyReplace_crlf_skip (rep : List Char) (a : Char) (rest : List Char)
    (h : a ≠ '\r' ∨ rest.head? ≠ some '\n') :
    pyReplace ['\r', '\n'] rep (a :: rest) = a :: pyReplace ['\r', '\n'] rep rest := by
  rw [pyReplace_cons, if_neg]
  rintro ⟨-, hp⟩
  rcases (crlf_prefix_iff a rest).mp (List.isPrefixOf_iff_prefix.mp hp) with ⟨h1, h2⟩
  rcases h with h | h
  · exact h h1
  · exact h h2

theorem escStage123_nil : escStage123 [] = [] := rfl

theorem escStage123_cons (a : Char) (rest : List Char) :
    escStage123 (a :: rest) = escB a ++ escStage123 rest := by
  unfold escStage123 escB
  rw [pyReplace_single_cons]
  by_cases h1 : a = '\\'
  · subst h1
    rw [if_pos rfl, if_pos rfl]
    rw [pyReplace_single_append, pyReplace_single_append]
    rw [show pyReplace [';'] ['\\', ';'] ['\\', '\\'] = ['\\', '\\'] by decide]
    rw [show pyReplace [','] ['\\', ','] ['\\', '\\'] = ['\\', '\\'] by decide]
  · rw [if_neg h1, if_neg h1]
    rw [show (a :: pyReplace ['\\'] ['\\', '\\'] rest) = [a] ++ pyReplace ['\\'] ['\\', '\\'] rest from rfl]
    rw [pyReplace_single_append, pyReplace_single_append]
    by_cases h2 : a = ';'
    · subst h2
      rw [if_pos rfl]
      rw [show pyReplace [';'] ['\\', ';'] [';'] = ['\\', ';'] by decide]
      rw [show pyReplace [','] ['\\', ','] ['\\', ';'] = ['\\', ';'] by decide]
    · rw [if_neg h2]
      rw [pyReplace_single_cons, if_neg h2, pyReplace_nil]
      by_cases h3 : a = ','
      · subst h3
        rw [if_pos rfl]
        rw [show pyReplace [','] ['\\', ','] [','] = ['\\', ','] from by decide]
      · rw [if_neg h3]
        rw [show ([a] : List Char) = a :: [] from rfl, pyReplace_single_cons, if_neg h3, pyReplace_nil]

theorem escSpec_nil : escSpec [] = [] := rfl

theorem escSpec_crlf (rest : List Char) :
    escSpec ('\r' :: '\n' :: rest) = '\\' :: 'n' :: escSpec rest := by
  simp [escSpec]

theorem escSpec_cons_skip (a : Char) (rest : List Char)
    (h : a ≠ '\r' ∨ rest.head? ≠ some '\n') :
    escSpec (a :: rest) = escChar a ++ escSpec rest := by
  cases rest with
  | nil => simp [escSpec]
  | cons b t =>
    have hne : ¬ (a = '\r' ∧ b = '\n') := by
      rcases h with h | h
      · exact fun hc => h hc.1
      · exact fun hc => h (by simp [hc.2])
    simp [escSpec, hne]

theorem escStage123_head_ne_lf (rest : List Char) (h : rest.head? ≠ some '\n') :
    (escStage123 rest).head? ≠ some '\n' := by
  cases rest with
  | nil => simp [escStage123_nil]
  | cons b t =>
    rw [escStage123_cons]
    unfold escB
    by_cases h1 : b = '\\'
    · subst h1; simp
    · rw [if_neg h1]
      by_cases h2 : b = ';'
      · subst h2; simp
      · rw [if_neg h2]
        by_cases h3 : b = ','
        · subst h3; simp
        · rw [if_neg h3]
          simpa using h

theorem stage45_escB (a : Char) (x : List Char) (ha : a ≠ '\r') :
    pyReplace ['\n'] ['\\', 'n'] (pyReplace ['\r', '\n'] ['\\', 'n'] (escB a ++ x)) =
      escChar a ++ pyReplace ['\n'] ['\\', 'n'] (pyReplace ['\r', '\n'] ['\\', 'n'] x) := by
  by_cases h1 : a = '\\'
  · subst h1
    rw [show escB '\\' = ['\\', '\\'] by decide, show escChar '\\' = ['\\', '\\'] by decide]
    simp only [List.cons_append, List.nil_append]
    rw [pyReplace_crlf_skip _ _ _ (Or.inl (by decide)),
      pyReplace_crlf_skip _ _ _ (Or.inl (by decide)),
      pyReplace_single_cons, if_neg (by decide),
      pyReplace_single_cons, if_neg (by decide)]
  · by_cases h2 : a = ';'
    · subst h2
      rw [show escB ';' = ['\\', ';'] by decide, show escChar ';' = ['\\', ';'] by decide]
      simp only [List.cons_append, List.nil_append]
      rw [pyReplace_crlf_skip _ _ _ (Or.inl (by decide)),
        pyReplace_crlf_skip _ _ _ (Or.inl (by decide)),
        pyReplace_single_cons, if_neg (by decide),
        pyReplace_single_cons, if_neg (by decide)]
    · by_cases h3 : a = ','
      · subst h3
        rw [show escB ',' = ['\\', ','] by decide, show escChar ',' = ['\\', ','] by decide]
        simp only [List.cons_append, List.nil_append]
        rw [pyReplace_crlf_skip _ _ _ (Or.inl (by decide)),
          pyReplace_crlf_skip _ _ _ (Or.inl (by decide)),
          pyReplace_single_cons, if_neg (by decide),
          pyReplace_single_cons, if_neg (by decide)]
      · by_cases h4 : a = '\n'
        · subst h4
          rw [show escB '\n' = ['\n'] by decide, show escChar '\n' = ['\\', 'n'] by decide]
          simp only [List.cons_append, List.nil_append]
          rw [pyReplace_crlf_skip _ _ _ (Or.inl (by decide)),
            pyReplace_single_cons, if_pos rfl]
          rfl
        · rw [show escB a = [a] by unfold escB; rw [if_neg h1, if_neg h2, if_neg h3],
            show escChar a = [a] by unfold escChar; rw [if_neg h1, if_neg h2, if_neg h3, if_neg h4]]
          simp only [List.cons_append, List.nil_append]
          rw [pyReplace_crlf_skip _ _ _ (Or.inl ha),
            pyReplace_single_cons, if_neg h4]

theorem escape_chain_spec : ∀ n s, s.length ≤ n →
    pyReplace ['\n'] ['\\', 'n'] (pyReplace ['\r', '\n'] ['\\', 'n'] (escStage123 s)) = escSpec s := by
  intro n
  induction n with
  | zero =>
    intro s h
    have hs : s = [] := List.eq_nil_of_length_eq_zero (Nat.le_zero.mp h)
    subst hs; rfl
  | succ n ih =>
    intro s h
    cases s with
    | nil => rfl
    | cons a rest =>
      by_cases hcr : a = '\r'
      · subst hcr
        cases rest with
        | nil =>
          rw [escStage123_cons, escStage123_nil, show escB '\r' = ['\r'] by decide]
          simp only [List.append_nil]
          rw [show (['\r'] : List Char) = '\r' :: [] from rfl,
            pyReplace_crlf_skip _ _ _ (Or.inr (by simp)), pyReplace_nil,
            pyReplace_single_cons, if_neg (by decide), pyReplace_nil]
          rfl
        | cons b rest2 =>
          by_cases hlf : b = '\n'
          · subst hlf
            rw [escStage123_cons, escStage123_cons,
              show escB '\r' = ['\r'] by decide, show escB '\n' = ['\n'] by decide]
            simp only [List.cons_append, List.nil_append]
            rw [pyReplace_crlf_match, pyReplace_single_append,
              show pyReplace ['\n'] ['\\', 'n'] ['\\', 'n'] = ['\\', 'n'] by decide,
              ih rest2 (by simp only [List.length_cons] at h; omega), escSpec_crlf]
            rfl
          · rw [escStage123_cons, show escB '\r' = ['\r'] by decide]
            simp only [List.singleton_append]
            rw [pyReplace_crlf_skip _ _ _
                (Or.inr (escStage123_head_ne_lf (b :: rest2) (by simp [hlf]))),
              pyReplace_single_cons, if_neg (by decide),
              ih (b :: rest2) (by simp only [List.length_cons] at h ⊢; omega),
              escSpec_cons_skip '\r' (b :: rest2) (Or.inr (by simp [hlf]))]
            rfl
      · rw [escStage123_cons, stage45_escB a _ hcr,
          ih rest (by simp only [List.length_cons] at h; omega)]
        by_cases hlf2 : rest.head? = some '\n'
        · cases rest with
          | nil => simp at hlf2
          | cons b rest2 =>
            simp only [List.head?_cons, Option.some.injEq] at hlf2
            subst hlf2
            rw [escSpec_cons_skip a ('\n' :: rest2) (Or.inl hcr)]
        · rw [escSpec_cons_skip a rest (Or.inr hlf2)]

theorem escape_vcard_value_eq_escSpec (s : List Char) :
    escape_vcard_value s = escSpec s := by
  unfold escape_vcard_value
  by_cases h : s = []
  · subst h; rw [if_pos rfl]; rfl
  · rw [if_neg h]
    exact escape_chain_spec s.length s (Nat.le_refl _)

theorem wellEscapedNoLF_cons_backslash (c : Char) (rest : List Char) :
    wellEscapedNoLF ('\\' :: c :: rest) =
      ((c = '\\' || c = ';' || c = ',' || c = 'n') && wellEscapedNoLF rest) := rfl

theorem wellEscapedNoLF_escaped (c : Char) (rest : List Char)
    (hc : c = '\\' ∨ c = ';' ∨ c = ',' ∨ c = 'n') :
    wellEscapedNoLF ('\\' :: c :: rest) = wellEscapedNoLF rest := by
  rw [wellEscapedNoLF_cons_backslash]
  rcases hc with rfl | rfl | rfl | rfl <;> simp

theorem wellEscapedNoLF_plain (a : Char) (rest : List Char)
    (ha : a ≠ '\\') (h2 : ¬(a = ';' ∨ a = ',' ∨ a = '\n')) :
    wellEscapedNoLF (a :: rest) = wellEscapedNoLF rest := by
  push_neg at h2
  conv_lhs => rw [wellEscapedNoLF.eq_def]
  dsimp only
  rw [if_neg ha]
  have hb : (a = ';' || a = ',' || a = '\n') = false := by
    simp [h2.1, h2.2.1, h2.2.2]
  rw [hb]
  simp

theorem wellEscapedNoLF_escChar_append (a : Char) (x : List Char) :
    wellEscapedNoLF (escChar a ++ x) = wellEscapedNoLF x := by
  by_cases h1 : a = '\\'
  · subst h1
    rw [show escChar '\\' = ['\\', '\\'] by decide]
    exact wellEscapedNoLF_escaped '\\' x (Or.inl rfl)
  · by_cases h2 : a = ';'
    · subst h2
      rw [show escChar ';' = ['\\', ';'] by decide]
      exact wellEscapedNoLF_escaped ';' x (Or.inr (Or.inl rfl))
    · by_cases h3 : a = ','
      · subst h3
        rw [show escChar ',' = ['\\', ','] by decide]
        exact wellEscapedNoLF_escaped ',' x (Or.inr (Or.inr (Or.inl rfl)))
      · by_cases h4 : a = '\n'
        · subst h4
          rw [show escChar '\n' = ['\\', 'n'] by decide]
          exact wellEscapedNoLF_escaped 'n' x (Or.inr (Or.inr (Or.inr rfl)))
        · rw [show escChar a = [a] by unfold escChar; rw [if_neg h1, if_neg h2, if_neg h3, if_neg h4]]
          exact wellEscapedNoLF_plain a x h1 (by push_neg; exact ⟨h2, h3, h4⟩)

theorem wellEscapedNoLF_escSpec : ∀ n s, s.length ≤ n →
    wellEscapedNoLF (escSpec s) = true := by
  intro n
  induction n with
  | zero =>
    intro s h
    have hs : s = [] := List.eq_nil_of_length_eq_zero (Nat.le_zero.mp h)
    subst hs; rfl
  | succ n ih =>
    intro s h
    cases s with
    | nil => rfl
    | cons a rest =>
      by_cases hpair : a = '\r' ∧ rest.head? = some '\n'
      · obtain ⟨rfl, hhd⟩ := hpair
        cases rest with
        | nil => simp at hhd
        | cons b rest2 =>
          simp only [List.head?_cons, Option.some.injEq] at hhd
          subst hhd
          rw [escSpec_crlf, wellEscapedNoLF_escaped 'n' _ (Or.inr (Or.inr (Or.inr rfl)))]
          exact ih rest2 (by simp only [List.length_cons] at h; omega)
      · rw [escSpec_cons_skip a rest (by
          by_cases h1 : a = '\r'
          · exact Or.inr (fun hh => hpair ⟨h1, hh⟩)
          · exact Or.inl h1)]
        rw [wellEscapedNoLF_escChar_append]
        exact ih rest (by simp only [List.length_cons] at h; omega)

theorem lf_not_mem_wellEscaped : ∀ n s, s.length ≤ n →
    wellEscapedNoLF s = true → '\n' ∉ s := by
  intro n
  induction n with
  | zero =>
    intro s h _
    have hs : s = [] := List.eq_nil_of_length_eq_zero (Nat.le_zero.mp h)
    subst hs; simp
  | succ n ih =>
    intro s h hwf
    cases s with
    | nil => simp
    | cons a rest =>
      by_cases h1 : a = '\\'
      · subst h1
        cases rest with
        | nil => simp [wellEscapedNoLF] at hwf
        | cons c rest2 =>
          rw [wellEscapedNoLF_cons_backslash] at hwf
          simp only [Bool.and_eq_true, Bool.or_eq_true, decide_eq_true_eq] at hwf
          intro hmem
          rcases List.mem_cons.mp hmem with h2 | h2
          · exact absurd h2.symm (by decide)
          rcases List.mem_cons.mp h2 with h3 | h3
          · rcases hwf.1 with ((h4 | h4) | h4) | h4 <;>
              (rw [← h3] at h4; exact absurd h4 (by decide))
          · exact ih rest2 (by simp only [List.length_cons] at h; omega) hwf.2 h3
      · rw [wellEscapedNoLF.eq_def] at hwf
        dsimp only at hwf
        rw [if_neg h1] at hwf
        simp only [Bool.and_eq_true, Bool.not_eq_true', Bool.or_eq_false_iff,
          decide_eq_false_iff_not] at hwf
        intro hmem
        rcases List.mem_cons.mp hmem with h2 | h2
        · exact hwf.1.2 h2.symm
        · exact ih rest (by simp only [List.length_cons] at h; omega) hwf.2 h2

/-- C1 counterexample: on the one-character input `"\r"` (a carriage return
not followed by LF) the escaper returns its input unchanged, so the output
does contain a CR character, refuting the claim that the escaped output
contains no CR. -/
theorem escape_vcard_value_cr_counterexample :
    escape_vcard_value (str "\r") = str "\r" ∧ '\r' ∈ escape_vcard_value (str "\r") := by
  decide

/-- C1 (amended): for every input string, the escaped string parses as a
sequence of escape pairs `\\`, `\;`, `\,`, `\n` and ordinary characters —
so every backslash, semicolon and comma in the output is part of an escape
sequence introduced by the escaper — and the output contains no LF character.
(A CR not followed by LF is preserved, so the output may contain CR; see the
counterexample.) -/
theorem escape_vcard_value_wellEscaped (s : List Char) :
    wellEscapedNoLF (escape_vcard_value s) = true ∧ '\n' ∉ escape_vcard_value s := by
  have h1 : wellEscapedNoLF (escape_vcard_value s) = true := by
    rw [escape_vcard_value_eq_escSpec]
    exact wellEscapedNoLF_escSpec s.length s (Nat.le_refl _)
  exact ⟨h1, lf_not_mem_wellEscaped (escape_vcard_value s).length _ (Nat.le_refl _) h1⟩

/-- C9: the Field Escaper is a total function that returns the empty string
on absent (`None`) or empty input, and otherwise applies exactly the four
ordered replacements — backslash, then semicolon, then comma, then CRLF/LF —
each pass operating on the already-transformed string. -/
theorem escape_vcard_value_algorithm :
    escape_vcard_value_opt none = [] ∧
    escape_vcard_value [] = [] ∧
    ∀ s, escape_vcard_value s =
      pyReplace (str "\n") (str "\\n")
        (pyReplace (str "\r\n") (str "\\n")
          (pyReplace (str ",") (str "\\,")
            (pyReplace (str ";") (str "\\;")
              (pyReplace (str "\\") (str "\\\\") s)))) := by
  refine ⟨rfl, rfl, fun s => ?_⟩
  unfold escape_vcard_value
  by_cases h : s = []
  · subst h
    rw [if_pos rfl]
    rfl
  · rw [if_neg h]

/-- C5: an avatar or cryptographic-key URI is accepted only when it is an
absolute `http://` or `https://` URL: a non-http(s) avatar URI makes
`build_vcard` fail with the avatar `InvalidURIError` message, a non-http(s)
PGP-key URI (with a valid avatar) fails with the key message, and on success
the accepted URIs were http(s) and are emitted as URI-valued fields. -/
theorem build_vcard_uri_validation
    (full_name given surname preferred_name email phone github city country note
      avatar_uri pgp_key_uri pgp_fingerprint line_ending : List Char) :
    (avatar_uri ≠ [] → is_http_url avatar_uri = false →
      build_vcard full_name given surname preferred_name email phone github city country note
        avatar_uri pgp_key_uri pgp_fingerprint line_ending =
        .error "Avatar must be an http(s) URL when provided. Inline embedding is disabled.") ∧
    ((avatar_uri = [] ∨ is_http_url avatar_uri = true) → pgp_key_uri ≠ [] →
      is_http_url pgp_key_uri = false →
      build_vcard full_name given surname preferred_name email phone github city country note
        avatar_uri pgp_key_uri pgp_fingerprint line_ending =
        .error "PGP key URI must be an http(s) URL when provided.") ∧
    (∀ ls, vcard_lines full_name given surname preferred_name email phone github city country
        note avatar_uri pgp_key_uri pgp_fingerprint = .ok ls →
      (avatar_uri ≠ [] → is_http_url avatar_uri = true) ∧
      (pgp_key_uri ≠ [] → is_http_url pgp_key_uri = true) ∧
      (avatar_uri ≠ [] → str "PHOTO;VALUE=URI:" ++ escape_vcard_value avatar_uri ∈ ls) ∧
      (pgp_key_uri ≠ [] → str "KEY;VALUE=URI:" ++ escape_vcard_value pgp_key_uri ∈ ls)) := by
  refine ⟨?_, ?_, ?_⟩
  · intro ha hurl
    unfold build_vcard vcard_lines
    rw [if_pos ⟨ha, by simp [hurl]⟩]
  · intro hav hpg hurl
    unfold build_vcard vcard_lines
    rw [if_neg, if_pos ⟨hpg, by simp [hurl]⟩]
    rintro ⟨h1, h2⟩
    rcases hav with h | h
    · exact h1 h
    · exact h2 (by simp [h])
  · intro ls hls
    unfold vcard_lines at hls
    by_cases h1 : avatar_uri ≠ [] ∧ ¬ is_http_url avatar_uri
    · rw [if_pos h1] at hls
      exact absurd hls (by simp)
    · rw [if_neg h1] at hls
      by_cases h2 : pgp_key_uri ≠ [] ∧ ¬ is_http_url pgp_key_uri
      · rw [if_pos h2] at hls
        exact absurd hls (by simp)
      · rw [if_neg h2] at hls
        have hlseq := (Except.ok.inj hls).symm
        push_neg at h1 h2
        refine ⟨?_, ?_, ?_, ?_⟩
        · intro ha
          have := h1 ha
          simpa using this
        · intro hp
          have := h2 hp
          simpa using this
        · intro ha
          rw [hlseq]
          have hmem : str "PHOTO;VALUE=URI:" ++ escape_vcard_value avatar_uri ∈
              avatarBlock avatar_uri := by
            unfold avatarBlock
            rw [if_pos ha]
            exact List.mem_singleton.mpr rfl
          simp only [List.mem_append]
          tauto
        · intro hp
          rw [hlseq]
          have hmem : str "KEY;VALUE=URI:" ++ escape_vcard_value pgp_key_uri ∈
              keyBlock pgp_key_uri := by
            unfold keyBlock
            rw [if_pos hp]
            exact List.mem_singleton.mpr rfl
          simp only [List.mem_append]
          tauto

theorem build_vcard_uri_validation_witness :
    (str "ftp://x.com/a.jpg" ≠ [] ∧ is_http_url (str "ftp://x.com/a.jpg") = false) ∧
    build_vcard (str "A") [] [] [] [] [] [] [] [] [] (str "ftp://x.com/a.jpg") [] [] CRLF =
      .error "Avatar must be an http(s) URL when provided. Inline embedding is disabled." ∧
    vcard_lines (str "A") [] [] [] [] [] [] [] [] [] (str "https://x.com/a.jpg") [] [] =
      .ok [str "BEGIN:VCARD", str "VERSION:3.0", str "FN:A", str "N:;;;;",
        str "PHOTO;VALUE=URI:https://x.com/a.jpg", str "END:VCARD"] ∧
    str "PHOTO;VALUE=URI:" ++ escape_vcard_value (str "https://x.com/a.jpg") ∈
      [str "BEGIN:VCARD", str "VERSION:3.0", str "FN:A", str "N:;;;;",
        str "PHOTO;VALUE=URI:https://x.com/a.jpg", str "END:VCARD"] := by
  have hls : vcard_lines (str "A") [] [] [] [] [] [] [] [] [] (str "https://x.com/a.jpg") [] [] =
      .ok [str "BEGIN:VCARD", str "VERSION:3.0", str "FN:A", str "N:;;;;",
        str "PHOTO;VALUE=URI:https://x.com/a.jpg", str "END:VCARD"] := by rfl
  refine ⟨⟨by decide, by decide⟩, ?_, hls, ?_⟩
  · exact (build_vcard_uri_validation (str "A") [] [] [] [] [] [] [] [] []
      (str "ftp://x.com/a.jpg") [] [] CRLF).1 (by decide) (by decide)
  · exact ((build_vcard_uri_validation (str "A") [] [] [] [] [] [] [] [] []
      (str "https://x.com/a.jpg") [] [] CRLF).2.2 _ hls).2.2.1 (by decide)

theorem github_url_of_ne_nil (github : List Char) (h : github ≠ []) :
    github_url_of github ≠ [] := by
  unfold github_url_of
  rw [if_neg h]
  by_cases hh : is_http_url github
  · rw [if_pos hh]; exact h
  · rw [if_neg hh]; simp [str]

/-- C8: a non-empty profile handle is used as-is when it is already an
absolute http(s) URL and is otherwise prefixed with the fixed base
`https://github.com/`; in both cases the successful record contains a `URL`
field with that URL and the labeled-link item pair referencing it. -/
theorem build_vcard_github_links
    (full_name given surname preferred_name email phone github city country note
      avatar_uri pgp_key_uri pgp_fingerprint : List Char) :
    (github ≠ [] → is_http_url github = true → github_url_of github = github) ∧
    (github ≠ [] → is_http_url github = false →
      github_url_of github = str "https://github.com/" ++ github) ∧
    (∀ ls, vcard_lines full_name given surname preferred_name email phone github city country
        note avatar_uri pgp_key_uri pgp_fingerprint = .ok ls → github ≠ [] →
      str "URL:" ++ escape_vcard_value (github_url_of github) ∈ ls ∧
      str "item1.URL;type=pref:" ++ escape_vcard_value (github_url_of github) ∈ ls ∧
      str "item1.X-ABLabel:GitHub" ∈ ls) := by
  refine ⟨?_, ?_, ?_⟩
  · intro h hh
    unfold github_url_of
    rw [if_neg h, if_pos hh]
  · intro h hh
    unfold github_url_of
    rw [if_neg h, if_neg (by simp [hh])]
  · intro ls hls hg
    unfold vcard_lines at hls
    by_cases h1 : avatar_uri ≠ [] ∧ ¬ is_http_url avatar_uri
    · rw [if_pos h1] at hls
      exact absurd hls (by simp)
    · rw [if_neg h1] at hls
      by_cases h2 : pgp_key_uri ≠ [] ∧ ¬ is_http_url pgp_key_uri
      · rw [if_pos h2] at hls
        exact absurd hls (by simp)
      · rw [if_neg h2] at hls
        have hlseq := (Except.ok.inj hls).symm
        subst hlseq
        have hurl : str "URL:" ++ escape_vcard_value (github_url_of github) ∈
            urlBlock github := by
          unfold urlBlock
          rw [if_pos (github_url_of_ne_nil github hg)]
          exact List.mem_singleton.mpr rfl
        have happle1 : str "item1.URL;type=pref:" ++ escape_vcard_value (github_url_of github) ∈
            appleBlock github := by
          unfold appleBlock
          rw [if_pos hg]
          simp
        have happle2 : str "item1.X-ABLabel:GitHub" ∈ appleBlock github := by
          unfold appleBlock
          rw [if_pos hg]
          simp
        refine ⟨?_, ?_, ?_⟩ <;> (simp only [List.mem_append]; tauto)

theorem build_vcard_github_links_witness :
    github_url_of (str "alice") = str "https://github.com/alice" ∧
    vcard_lines (str "Alice Example") (str "Alice") (str "Example") [] (str "alice@example.com")
        [] (str "alice") [] [] [] [] [] [] =
      .ok [str "BEGIN:VCARD", str "VERSION:3.0", str "FN:Alice Example",
        str "N:Example;Alice;;;", str "EMAIL;TYPE=INTERNET:alice@example.com",
        str "URL:https://github.com/alice",
        str "X-SOCIALPROFILE;TYPE=github:https://github.com/alice",
        str "item1.URL;type=pref:https://github.com/alice",
        str "item1.X-ABLabel:GitHub", str "END:VCARD"] ∧
    str "URL:" ++ escape_vcard_value (github_url_of (str "alice")) ∈
      [str "BEGIN:VCARD", str "VERSION:3.0", str "FN:Alice Example",
        str "N:Example;Alice;;;", str "EMAIL;TYPE=INTERNET:alice@example.com",
        str "URL:https://github.com/alice",
        str "X-SOCIALPROFILE;TYPE=github:https://github.com/alice",
        str "item1.URL;type=pref:https://github.com/alice",
        str "item1.X-ABLabel:GitHub", str "END:VCARD"] ∧
    str "item1.URL;type=pref:" ++ escape_vcard_value (github_url_of (str "alice")) ∈
      [str "BEGIN:VCARD", str "VERSION:3.0", str "FN:Alice Example",
        str "N:Example;Alice;;;", str "EMAIL;TYPE=INTERNET:alice@example.com",
        str "URL:https://github.com/alice",
        str "X-SOCIALPROFILE;TYPE=github:https://github.com/alice",
        str "item1.URL;type=pref:https://github.com/alice",
        str "item1.X-ABLabel:GitHub", str "END:VCARD"] := by
  have hls : vcard_lines (str "Alice Example") (str "Alice") (str "Example") []
      (str "alice@example.com") [] (str "alice") [] [] [] [] [] [] =
      .ok [str "BEGIN:VCARD", str "VERSION:3.0", str "FN:Alice Example",
        str "N:Example;Alice;;;", str "EMAIL;TYPE=INTERNET:alice@example.com",
        str "URL:https://github.com/alice",
        str "X-SOCIALPROFILE;TYPE=github:https://github.com/alice",
        str "item1.URL;type=pref:https://github.com/alice",
        str "item1.X-ABLabel:GitHub", str "END:VCARD"] := by rfl
  have hthm := build_vcard_github_links (str "Alice Example") (str "Alice") (str "Example") []
    (str "alice@example.com") [] (str "alice") [] [] [] [] [] []
  have hmem := hthm.2.2 _ hls (by decide)
  exact ⟨hthm.2.1 (by decide) (by decide), hls, hmem.1, hmem.2.1⟩

/-- C7: name resolution in `main`.  If stripped given and surname are both
empty, the full name is split on whitespace: with at least two tokens the
last becomes the surname and the rest, joined by spaces, the given name;
with fewer tokens the stripped full name is the given name and the surname
is empty.  The formatted name is the stripped full name when non-empty;
otherwise it is the stripped preferred name (followed by the surname when
present) when a preferred name is supplied, else given and surname joined by
a space. -/
theorem name_resolution_spec (nameArg given surname preferred fnGiven fnSurname : List Char) :
    ((pyStrip given = [] ∧ pyStrip surname = []) →
      (2 ≤ (pyWords (pyStrip nameArg)).length →
        resolve_given_surname nameArg given surname =
          (List.intercalate [' '] (pyWords (pyStrip nameArg)).dropLast,
           (pyWords (pyStrip nameArg)).getLastD [])) ∧
      ((pyWords (pyStrip nameArg)).length < 2 →
        resolve_given_surname nameArg given surname = (pyStrip nameArg, []))) ∧
    (¬ (pyStrip given = [] ∧ pyStrip surname = []) →
      resolve_given_surname nameArg given surname = (pyStrip given, pyStrip surname)) ∧
    (pyStrip nameArg ≠ [] →
      resolve_fn nameArg preferred fnGiven fnSurname = pyStrip nameArg) ∧
    (pyStrip nameArg = [] → preferred ≠ [] → fnSurname ≠ [] →
      resolve_fn nameArg preferred fnGiven fnSurname = pyStrip preferred ++ [' '] ++ fnSurname) ∧
    (pyStrip nameArg = [] → preferred ≠ [] → fnSurname = [] →
      resolve_fn nameArg preferred fnGiven fnSurname = pyStrip preferred) ∧
    (pyStrip nameArg = [] → preferred = [] →
      resolve_fn nameArg preferred fnGiven fnSurname =
        pyStrip (List.intercalate [' '] ([fnGiven, fnSurname].filter (· ≠ [])))) := by
  refine ⟨?_, ?_, ?_, ?_, ?_, ?_⟩
  · intro hgs
    constructor
    · intro hlen
      unfold resolve_given_surname
      rw [if_pos hgs, if_pos hlen]
    · intro hlen
      unfold resolve_given_surname
      rw [if_pos hgs, if_neg (by omega)]
  · intro hgs
    unfold resolve_given_surname
    rw [if_neg hgs]
  · intro hfn
    unfold resolve_fn
    rw [if_neg hfn]
  · intro hfn hp hs
    unfold resolve_fn
    rw [if_pos hfn, if_pos hp, if_pos hs]
  · intro hfn hp hs
    unfold resolve_fn
    rw [if_pos hfn, if_pos hp, if_neg (by simp [hs])]
  · intro hfn hp
    unfold resolve_fn
    rw [if_pos hfn, if_neg (by simp [hp])]

theorem name_resolution_spec_witness :
    (pyStrip [] = ([] : List Char) ∧ pyStrip [] = ([] : List Char)) ∧
    2 ≤ (pyWords (pyStrip (str "Ada Lovelace"))).length ∧
    resolve_given_surname (str "Ada Lovelace") [] [] = (str "Ada", str "Lovelace") := by
  have h := ((name_resolution_spec (str "Ada Lovelace") [] [] [] [] []).1
    ⟨rfl, rfl⟩).1 (by decide)
  refine ⟨⟨rfl, rfl⟩, by decide, ?_⟩
  rw [h]
  decide

/-! ### No line of the record contains a line feed -/

theorem lf_not_mem_pyReplace_lf (rep : List Char) (hrep : '\n' ∉ rep) :
    ∀ s, '\n' ∉ pyReplace ['\n'] rep s := by
  intro s
  induction s with
  | nil => simp [pyReplace_nil]
  | cons a rest ih =>
    rw [pyReplace_single_cons]
    by_cases h : a = '\n'
    · rw [if_pos h]
      intro hmem
      rcases List.mem_append.mp hmem with h2 | h2
      · exact hrep h2
      · exact ih h2
    · rw [if_neg h]
      intro hmem
      rcases List.mem_cons.mp hmem with h2 | h2
      · exact h h2.symm
      · exact ih h2

theorem escape_no_lf (s : List Char) : '\n' ∉ escape_vcard_value s := by
  unfold escape_vcard_value
  by_cases h : s = []
  · rw [if_pos h]; simp
  · rw [if_neg h]
    exact lf_not_mem_pyReplace_lf ['\\', 'n'] (by decide) _

theorem no_lf_append (xs ys : List Char) (hx : '\n' ∉ xs) (hy : '\n' ∉ ys) :
    '\n' ∉ xs ++ ys := by
  intro h
  rcases List.mem_append.mp h with h | h
  · exact hx h
  · exact hy h

theorem fnLine_no_lf (x : List Char) : '\n' ∉ fnLine x :=
  no_lf_append _ _ (by decide) (escape_no_lf x)

theorem nLine_no_lf (a b : List Char) : '\n' ∉ nLine a b :=
  no_lf_append _ _
    (no_lf_append _ _
      (no_lf_append _ _ (no_lf_append _ _ (by decide) (escape_no_lf a)) (by decide))
      (escape_no_lf b))
    (by decide)

theorem telBlock_no_lf (x : List Char) : ∀ l ∈ telBlock x, '\n' ∉ l := by
  intro l hl
  unfold telBlock at hl
  by_cases h : escape_vcard_value x ≠ []
  · rw [if_pos h] at hl
    rcases List.mem_singleton.mp hl with rfl
    exact no_lf_append _ _ (by decide) (escape_no_lf x)
  · rw [if_neg h] at hl
    simp at hl

theorem emailBlock_no_lf (x : List Char) : ∀ l ∈ emailBlock x, '\n' ∉ l := by
  intro l hl
  unfold emailBlock at hl
  by_cases h : escape_vcard_value x ≠ []
  · rw [if_pos h] at hl
    rcases List.mem_singleton.mp hl with rfl
    exact no_lf_append _ _ (by decide) (escape_no_lf x)
  · rw [if_neg h] at hl
    simp at hl

theorem urlBlock_no_lf (x : List Char) : ∀ l ∈ urlBlock x, '\n' ∉ l := by
  intro l hl
  unfold urlBlock at hl
  by_cases h : github_url_of x ≠ []
  · rw [if_pos h] at hl
    rcases List.mem_singleton.mp hl with rfl
    exact no_lf_append _ _ (by decide) (escape_no_lf _)
  · rw [if_neg h] at hl
    simp at hl

theorem socialBlock_no_lf (x : List Char) : ∀ l ∈ socialBlock x, '\n' ∉ l := by
  intro l hl
  unfold socialBlock at hl
  by_cases h : x ≠ []
  · rw [if_pos h] at hl
    rcases List.mem_singleton.mp hl with rfl
    exact no_lf_append _ _ (by decide) (escape_no_lf _)
  · rw [if_neg h] at hl
    simp at hl

theorem appleBlock_no_lf (x : List Char) : ∀ l ∈ appleBlock x, '\n' ∉ l := by
  intro l hl
  unfold appleBlock at hl
  by_cases h : x ≠ []
  · rw [if_pos h] at hl
    rcases List.mem_cons.mp hl with rfl | hl2
    · exact no_lf_append _ _ (by decide) (escape_no_lf _)
    · rcases List.mem_singleton.mp hl2 with rfl
      decide
  · rw [if_neg h] at hl
    simp at hl

theorem adrBlock_no_lf (x y : List Char) : ∀ l ∈ adrBlock x y, '\n' ∉ l := by
  intro l hl
  unfold adrBlock at hl
  by_cases h : escape_vcard_value x ≠ [] ∨ escape_vcard_value y ≠ []
  · rw [if_pos h] at hl
    rcases List.mem_singleton.mp hl with rfl
    exact no_lf_append _ _
      (no_lf_append _ _ (no_lf_append _ _ (by decide) (escape_no_lf x)) (by decide))
      (escape_no_lf y)
  · rw [if_neg h] at hl
    simp at hl

theorem noteBlock_no_lf (x : List Char) : ∀ l ∈ noteBlock x, '\n' ∉ l := by
  intro l hl
  unfold noteBlock at hl
  by_cases h : escape_vcard_value x ≠ []
  · rw [if_pos h] at hl
    rcases List.mem_singleton.mp hl with rfl
    exact no_lf_append _ _ (by decide) (escape_no_lf x)
  · rw [if_neg h] at hl
    simp at hl

theorem avatarBlock_no_lf (x : List Char) : ∀ l ∈ avatarBlock x, '\n' ∉ l := by
  intro l hl
  unfold avatarBlock at hl
  by_cases h : x ≠ []
  · rw [if_pos h] at hl
    rcases List.mem_singleton.mp hl with rfl
    exact no_lf_append _ _ (by decide) (escape_no_lf x)
  · rw [if_neg h] at hl
    simp at hl

theorem keyBlock_no_lf (x : List Char) : ∀ l ∈ keyBlock x, '\n' ∉ l := by
  intro l hl
  unfold keyBlock at hl
  by_cases h : x ≠ []
  · rw [if_pos h] at hl
    rcases List.mem_singleton.mp hl with rfl
    exact no_lf_append _ _ (by decide) (escape_no_lf x)
  · rw [if_neg h] at hl
    simp at hl

theorem fpBlock_no_lf (x : List Char) : ∀ l ∈ fpBlock x, '\n' ∉ l := by
  intro l hl
  unfold fpBlock at hl
  by_cases h : x ≠ []
  · rw [if_pos h] at hl
    rcases List.mem_singleton.mp hl with rfl
    exact no_lf_append _ _ (by decide) (escape_no_lf x)
  · rw [if_neg h] at hl
    simp at hl

theorem nickBlock_no_lf (x : List Char) : ∀ l ∈ nickBlock x, '\n' ∉ l := by
  intro l hl
  unfold nickBlock at hl
  by_cases h : x ≠ []
  · rw [if_pos h] at hl
    rcases List.mem_cons.mp hl with rfl | hl2
    · exact no_lf_append _ _ (by decide) (escape_no_lf _)
    · rcases List.mem_singleton.mp hl2 with rfl
      exact no_lf_append _ _ (by decide) (escape_no_lf _)
  · rw [if_neg h] at hl
    simp at hl

theorem vcard_lines_no_lf
    (full_name given surname preferred_name email phone github city country note
      avatar_uri pgp_key_uri pgp_fingerprint : List Char) (ls : List (List Char))
    (hls : vcard_lines full_name given surname preferred_name email phone github city country
      note avatar_uri pgp_key_uri pgp_fingerprint = .ok ls) :
    ∀ l ∈ ls, '\n' ∉ l := by
  unfold vcard_lines at hls
  by_cases h1 : avatar_uri ≠ [] ∧ ¬ is_http_url avatar_uri
  · rw [if_pos h1] at hls
    exact absurd hls (by simp)
  · rw [if_neg h1] at hls
    by_cases h2 : pgp_key_uri ≠ [] ∧ ¬ is_http_url pgp_key_uri
    · rw [if_pos h2] at hls
      exact absurd hls (by simp)
    · rw [if_neg h2] at hls
      have hlseq := (Except.ok.inj hls).symm
      subst hlseq
      simp only [List.forall_mem_append]
      refine ⟨⟨⟨⟨⟨⟨⟨⟨⟨⟨⟨⟨?_, telBlock_no_lf phone⟩, emailBlock_no_lf email⟩,
        urlBlock_no_lf github⟩, socialBlock_no_lf github⟩, appleBlock_no_lf github⟩,
        adrBlock_no_lf city country⟩, noteBlock_no_lf note⟩, avatarBlock_no_lf avatar_uri⟩,
        keyBlock_no_lf pgp_key_uri⟩, fpBlock_no_lf pgp_fingerprint⟩,
        nickBlock_no_lf preferred_name⟩, ?_⟩
      · intro l hl
        rcases List.mem_cons.mp hl with rfl | hl
        · decide
        rcases List.mem_cons.mp hl with rfl | hl
        · decide
        rcases List.mem_cons.mp hl with rfl | hl
        · exact fnLine_no_lf full_name
        rcases List.mem_singleton.mp hl with rfl
        exact nLine_no_lf surname given
      · intro l hl
        rcases List.mem_singleton.mp hl with rfl
        decide

theorem no_term_of_no_lf (t : List Char) (ht : t = CRLF ∨ t = LF) (l : List Char)
    (h : '\n' ∉ l) : ¬ t <:+: l := by
  rcases ht with rfl | rfl
  · exact not_crlf_infix_of_no_lf l h
  · exact fun hinf => h ((lf_infix_iff_mem l).mp hinf)

theorem cleanSeg_of_no_lf (t : List Char) (ht : t = CRLF ∨ t = LF) (l : List Char)
    (h : '\n' ∉ l) : CleanSeg t l := by
  have := cleanSeg_term t ht [] l (no_term_of_no_lf t ht l h)
  rwa [List.append_nil] at this

/-- C6: a successful record has `BEGIN:VCARD` and `VERSION:3.0` first and
`END:VCARD` last; the present fields appear in the fixed order identity block
(FN, N) → phone → email → link fields → address → note → avatar → key-URI →
key-fingerprint → nickname/preferred-name block → END; and the output string
is the fields joined by the chosen terminator, folded per line at width 75,
with a trailing terminator. -/
theorem build_vcard_structure
    (full_name given surname preferred_name email phone github city country note
      avatar_uri pgp_key_uri pgp_fingerprint line_ending : List Char)
    (ht : line_ending = CRLF ∨ line_ending = LF) :
    ∀ ls, vcard_lines full_name given surname preferred_name email phone github city country
        note avatar_uri pgp_key_uri pgp_fingerprint = .ok ls →
      ls = [str "BEGIN:VCARD", str "VERSION:3.0", fnLine full_name, nLine surname given]
        ++ telBlock phone ++ emailBlock email ++ urlBlock github ++ socialBlock github
        ++ appleBlock github ++ adrBlock city country ++ noteBlock note
        ++ avatarBlock avatar_uri ++ keyBlock pgp_key_uri ++ fpBlock pgp_fingerprint
        ++ nickBlock preferred_name ++ [str "END:VCARD"] ∧
      ls.head? = some (str "BEGIN:VCARD") ∧
      ls[1]? = some (str "VERSION:3.0") ∧
      ls.getLast? = some (str "END:VCARD") ∧
      build_vcard full_name given surname preferred_name email phone github city country
          note avatar_uri pgp_key_uri pgp_fingerprint line_ending =
        .ok (List.intercalate line_ending
              (ls.map (fun L => fold_vcard_line L 75 line_ending)) ++ line_ending) := by
  intro ls hls
  have hstruct : ls = [str "BEGIN:VCARD", str "VERSION:3.0", fnLine full_name,
      nLine surname given]
      ++ telBlock phone ++ emailBlock email ++ urlBlock github ++ socialBlock github
      ++ appleBlock github ++ adrBlock city country ++ noteBlock note
      ++ avatarBlock avatar_uri ++ keyBlock pgp_key_uri ++ fpBlock pgp_fingerprint
      ++ nickBlock preferred_name ++ [str "END:VCARD"] := by
    unfold vcard_lines at hls
    by_cases h1 : avatar_uri ≠ [] ∧ ¬ is_http_url avatar_uri
    · rw [if_pos h1] at hls
      exact absurd hls (by simp)
    · rw [if_neg h1] at hls
      by_cases h2 : pgp_key_uri ≠ [] ∧ ¬ is_http_url pgp_key_uri
      · rw [if_pos h2] at hls
        exact absurd hls (by simp)
      · rw [if_neg h2] at hls
        exact (Except.ok.inj hls).symm
  have hnolf := vcard_lines_no_lf full_name given surname preferred_name email phone github
    city country note avatar_uri pgp_key_uri pgp_fingerprint ls hls
  have hsplit : pySplit line_ending (List.intercalate line_ending ls) = ls := by
    apply pySplit_intercalate line_ending (term_ne_nil _ ht) ls
    · rw [hstruct]
      simp
    · intro c hc
      exact cleanSeg_of_no_lf _ ht c (hnolf c hc)
  refine ⟨hstruct, ?_, ?_, ?_, ?_⟩
  · rw [hstruct]
    rfl
  · rw [hstruct]
    rfl
  · rw [hstruct]
    exact List.getLast?_concat _
  · simp only [build_vcard, hls]
    simp only [assemble]
    rw [hsplit]

theorem cleanSeg_of_no_term (t : List Char) (ht : t = CRLF ∨ t = LF) (c : List Char)
    (h : ¬ t <:+: c) : CleanSeg t c := by
  have := cleanSeg_term t ht [] c h
  rwa [List.append_nil] at this

theorem cleanSeg_nil_seg (t : List Char) : CleanSeg t [] := by
  intro tail _ i hi
  simp at hi

theorem foldSegs_bounds (w : Nat) (l : List Char) :
    ∀ s₀ ss, foldSegs (w+1) l = s₀ :: ss →
      s₀.length ≤ w+1 ∧ ∀ seg ∈ ss, seg.length ≤ w+2 := by
  intro s₀ ss hfs
  unfold foldSegs at hfs
  by_cases h : l.length ≤ w+1
  · rw [if_pos h] at hfs
    obtain ⟨rfl, rfl⟩ : l = s₀ ∧ [] = ss := ⟨(List.cons.inj hfs).1, (List.cons.inj hfs).2⟩
    exact ⟨h, by simp⟩
  · rw [if_neg h] at hfs
    cases hm : chunksF (w+1) l with
    | nil =>
      exact absurd ((chunksF_eq_nil_iff w l).mp hm)
        (by intro h0; subst h0; simp at h)
    | cons c cs =>
      rw [hm] at hfs
      obtain ⟨rfl, rfl⟩ : c = s₀ ∧ cs.map (fun s => ' ' :: s) = ss :=
        ⟨(List.cons.inj hfs).1, (List.cons.inj hfs).2⟩
      constructor
      · exact chunksF_length_le w l.length l (Nat.le_refl _) c
          (by rw [hm]; exact List.mem_cons_self _ _)
      · intro seg hseg
        rcases List.mem_map.mp hseg with ⟨d, hd, rfl⟩
        have := chunksF_length_le w l.length l (Nat.le_refl _) d
          (by rw [hm]; exact List.mem_cons_of_mem _ hd)
        simp only [List.length_cons]
        omega

theorem foldSegs_all_le (w : Nat) (l : List Char) :
    ∀ seg ∈ foldSegs (w+1) l, seg.length ≤ w+2 := by
  intro seg hseg
  cases hm : foldSegs (w+1) l with
  | nil => exact absurd hm (foldSegs_ne_nil (w+1) l)
  | cons s₀ ss =>
    have hb := foldSegs_bounds w l s₀ ss hm
    rw [hm] at hseg
    rcases List.mem_cons.mp hseg with rfl | hmem
    · omega
    · exact hb.2 seg hmem

theorem intercalate_append_of_ne (t : List Char) :
    ∀ X Y : List (List Char), X ≠ [] → Y ≠ [] →
      List.intercalate t (X ++ Y) =
        List.intercalate t X ++ t ++ List.intercalate t Y := by
  intro X
  induction X with
  | nil => intro Y h _; exact absurd rfl h
  | cons x X ih =>
    intro Y _ hY
    cases X with
    | nil =>
      cases Y with
      | nil => exact absurd rfl hY
      | cons y Y' =>
        rw [List.singleton_append, intercalate_cons₂, intercalate_single]
    | cons x2 X' =>
      rw [List.cons_append, List.cons_append, intercalate_cons₂, ← List.cons_append,
        ih Y (by simp) hY, intercalate_cons₂]
      simp [List.append_assoc]

theorem intercalate_flatten_map (t : List Char) :
    ∀ LL : List (List (List Char)), (∀ x ∈ LL, x ≠ []) →
      List.intercalate t (LL.map (List.intercalate t)) =
        List.intercalate t LL.flatten := by
  intro LL
  induction LL with
  | nil => intro _; rfl
  | cons x LL ih =>
    intro hne
    cases LL with
    | nil =>
      simp only [List.map_cons, List.map_nil, List.flatten_cons, List.flatten_nil,
        List.append_nil]
      rw [intercalate_single]
    | cons y LL' =>
      rw [List.map_cons, List.map_cons, intercalate_cons₂, ← List.map_cons,
        ih (fun z hz => hne z (List.mem_cons_of_mem _ hz))]
      have hflat_ne : (y :: LL').flatten ≠ [] := by
        have hy := hne y (List.mem_cons_of_mem _ (List.mem_cons_self _ _))
        simp only [List.flatten_cons]
        intro h0
        exact hy (List.append_eq_nil.mp h0).1
      conv_rhs => rw [List.flatten_cons]
      rw [intercalate_append_of_ne t x (y :: LL').flatten
        (hne x (List.mem_cons_self _ _)) hflat_ne]

/-- C10: every physical line of a successful payload — every maximal segment
between terminators — has length at most 76: the physical segments are
exactly the folded segments of the logical lines (plus the empty segment
after the trailing terminator), with the first segment of each folded
logical line at most 75 and each continuation segment (one space plus a
75-bounded chunk) at most 76. -/
theorem build_vcard_line_width
    (full_name given surname preferred_name email phone github city country note
      avatar_uri pgp_key_uri pgp_fingerprint line_ending : List Char)
    (ht : line_ending = CRLF ∨ line_ending = LF) :
    ∀ ls, vcard_lines full_name given surname preferred_name email phone github city country
        note avatar_uri pgp_key_uri pgp_fingerprint = .ok ls →
      build_vcard full_name given surname preferred_name email phone github city country
          note avatar_uri pgp_key_uri pgp_fingerprint line_ending =
        .ok (assemble line_ending ls) ∧
      pySplit line_ending (assemble line_ending ls) =
        (ls.map (foldSegs 75)).flatten ++ [[]] ∧
      (∀ seg ∈ pySplit line_ending (assemble line_ending ls), seg.length ≤ 76) ∧
      (∀ l ∈ ls, ∀ s₀ ss, foldSegs 75 l = s₀ :: ss →
        s₀.length ≤ 75 ∧ ∀ seg ∈ ss, seg.length ≤ 76) := by
  intro ls hls
  have hbuild : build_vcard full_name given surname preferred_name email phone github city
      country note avatar_uri pgp_key_uri pgp_fingerprint line_ending =
      .ok (assemble line_ending ls) := by
    simp only [build_vcard, hls]
  have hnolf := vcard_lines_no_lf full_name given surname preferred_name email phone github
    city country note avatar_uri pgp_key_uri pgp_fingerprint ls hls
  have hlsne : ls ≠ [] := by
    unfold vcard_lines at hls
    by_cases h1 : avatar_uri ≠ [] ∧ ¬ is_http_url avatar_uri
    · rw [if_pos h1] at hls
      exact absurd hls (by simp)
    · rw [if_neg h1] at hls
      by_cases h2 : pgp_key_uri ≠ [] ∧ ¬ is_http_url pgp_key_uri
      · rw [if_pos h2] at hls
        exact absurd hls (by simp)
      · rw [if_neg h2] at hls
        have := (Except.ok.inj hls).symm
        subst this
        simp
  have hsplitJ : pySplit line_ending (List.intercalate line_ending ls) = ls := by
    apply pySplit_intercalate line_ending (term_ne_nil _ ht) ls hlsne
    intro c hc
    exact cleanSeg_of_no_lf _ ht c (hnolf c hc)
  have h75 : (75 : Nat) = 74 + 1 := rfl
  have hfold : ∀ l, fold_vcard_line l 75 line_ending =
      List.intercalate line_ending (foldSegs 75 l) := by
    intro l
    rw [h75]
    exact fold_eq_intercalate_foldSegs 74 line_ending l
  have hassemble : assemble line_ending ls =
      List.intercalate line_ending ((ls.map (foldSegs 75)).flatten ++ [[]]) := by
    simp only [assemble]
    rw [hsplitJ]
    have hmap : ls.map (fun L => fold_vcard_line L 75 line_ending) =
        (ls.map (foldSegs 75)).map (List.intercalate line_ending) := by
      rw [List.map_map]
      apply List.map_congr_left
      intro l _
      exact hfold l
    rw [hmap, intercalate_flatten_map line_ending _
      (fun x hx => by
        rcases List.mem_map.mp hx with ⟨l, _, rfl⟩
        exact foldSegs_ne_nil 75 l)]
    have hflatne : (ls.map (foldSegs 75)).flatten ≠ [] := by
      cases hcase : ls with
      | nil => exact absurd hcase hlsne
      | cons l rest =>
        simp only [List.map_cons, List.flatten_cons]
        intro h0
        exact foldSegs_ne_nil 75 l (List.append_eq_nil.mp h0).1
    rw [intercalate_append_of_ne line_ending _ [[]] hflatne (by simp),
      intercalate_single, List.append_nil]
  have h2 : pySplit line_ending (assemble line_ending ls) =
      (ls.map (foldSegs 75)).flatten ++ [[]] := by
    rw [hassemble]
    apply pySplit_intercalate line_ending (term_ne_nil _ ht) _ (by simp)
    intro c hc
    rcases List.mem_append.mp hc with hc | hc
    · rcases List.mem_flatten.mp hc with ⟨segs, hsegs, hcseg⟩
      rcases List.mem_map.mp hsegs with ⟨l, hlmem, rfl⟩
      apply cleanSeg_of_no_term _ ht
      rw [h75] at hcseg
      exact foldSegs_no_term 74 line_ending l ht
        (no_term_of_no_lf _ ht l (hnolf l hlmem)) c hcseg
    · rcases List.mem_singleton.mp hc with rfl
      exact cleanSeg_nil_seg line_ending
  refine ⟨hbuild, h2, ?_, ?_⟩
  · intro seg hseg
    rw [h2] at hseg
    rcases List.mem_append.mp hseg with hseg | hseg
    · rcases List.mem_flatten.mp hseg with ⟨segs, hsegs, hcseg⟩
      rcases List.mem_map.mp hsegs with ⟨l, _, rfl⟩
      rw [h75] at hcseg
      exact foldSegs_all_le 74 l seg hcseg
    · rcases List.mem_singleton.mp hseg with rfl
      simp
  · intro l _ s₀ ss hfs
    rw [h75] at hfs
    exact foldSegs_bounds 74 l s₀ ss hfs

theorem build_vcard_structure_witness :
    (CRLF = CRLF ∨ CRLF = LF) ∧
    vcard_lines (str "Alice Example") (str "Alice") (str "Example") [] (str "alice@example.com")
        [] (str "alice") [] [] [] [] [] [] =
      .ok [str "BEGIN:VCARD", str "VERSION:3.0", str "FN:Alice Example",
        str "N:Example;Alice;;;", str "EMAIL;TYPE=INTERNET:alice@example.com",
        str "URL:https://github.com/alice",
        str "X-SOCIALPROFILE;TYPE=github:https://github.com/alice",
        str "item1.URL;type=pref:https://github.com/alice",
        str "item1.X-ABLabel:GitHub", str "END:VCARD"] ∧
    ([str "BEGIN:VCARD", str "VERSION:3.0", str "FN:Alice Example",
        str "N:Example;Alice;;;", str "EMAIL;TYPE=INTERNET:alice@example.com",
        str "URL:https://github.com/alice",
        str "X-SOCIALPROFILE;TYPE=github:https://github.com/alice",
        str "item1.URL;type=pref:https://github.com/alice",
        str "item1.X-ABLabel:GitHub", str "END:VCARD"] :
      List (List Char)).head? = some (str "BEGIN:VCARD") ∧
    ([str "BEGIN:VCARD", str "VERSION:3.0", str "FN:Alice Example",
        str "N:Example;Alice;;;", str "EMAIL;TYPE=INTERNET:alice@example.com",
        str "URL:https://github.com/alice",
        str "X-SOCIALPROFILE;TYPE=github:https://github.com/alice",
        str "item1.URL;type=pref:https://github.com/alice",
        str "item1.X-ABLabel:GitHub", str "END:VCARD"] :
      List (List Char)).getLast? = some (str "END:VCARD") ∧
    build_vcard (str "Alice Example") (str "Alice") (str "Example") [] (str "alice@example.com")
        [] (str "alice") [] [] [] [] [] [] CRLF =
      .ok (List.intercalate CRLF
            (([str "BEGIN:VCARD", str "VERSION:3.0", str "FN:Alice Example",
              str "N:Example;Alice;;;", str "EMAIL;TYPE=INTERNET:alice@example.com",
              str "URL:https://github.com/alice",
              str "X-SOCIALPROFILE;TYPE=github:https://github.com/alice",
              str "item1.URL;type=pref:https://github.com/alice",
              str "item1.X-ABLabel:GitHub", str "END:VCARD"] :
              List (List Char)).map (fun L => fold_vcard_line L 75 CRLF)) ++ CRLF) := by
  have hls : vcard_lines (str "Alice Example") (str "Alice") (str "Example") []
      (str "alice@example.com") [] (str "alice") [] [] [] [] [] [] =
      .ok [str "BEGIN:VCARD", str "VERSION:3.0", str "FN:Alice Example",
        str "N:Example;Alice;;;", str "EMAIL;TYPE=INTERNET:alice@example.com",
        str "URL:https://github.com/alice",
        str "X-SOCIALPROFILE;TYPE=github:https://github.com/alice",
        str "item1.URL;type=pref:https://github.com/alice",
        str "item1.X-ABLabel:GitHub", str "END:VCARD"] := by rfl
  have h := build_vcard_structure (str "Alice Example") (str "Alice") (str "Example") []
    (str "alice@example.com") [] (str "alice") [] [] [] [] [] [] CRLF (Or.inl rfl) _ hls
  exact ⟨Or.inl rfl, hls, h.2.1, h.2.2.2.1, h.2.2.2.2⟩

theorem build_vcard_line_width_witness :
    (CRLF = CRLF ∨ CRLF = LF) ∧
    (∀ seg ∈ pySplit CRLF (assemble CRLF [str "BEGIN:VCARD", str "VERSION:3.0",
        str "FN:Alice Example", str "N:Example;Alice;;;",
        str "EMAIL;TYPE=INTERNET:alice@example.com",
        str "URL:https://github.com/alice",
        str "X-SOCIALPROFILE;TYPE=github:https://github.com/alice",
        str "item1.URL;type=pref:https://github.com/alice",
        str "item1.X-ABLabel:GitHub", str "END:VCARD"]), seg.length ≤ 76) := by
  have hls : vcard_lines (str "Alice Example") (str "Alice") (str "Example") []
      (str "alice@example.com") [] (str "alice") [] [] [] [] [] [] =
      .ok [str "BEGIN:VCARD", str "VERSION:3.0", str "FN:Alice Example",
        str "N:Example;Alice;;;", str "EMAIL;TYPE=INTERNET:alice@example.com",
        str "URL:https://github.com/alice",
        str "X-SOCIALPROFILE;TYPE=github:https://github.com/alice",
        str "item1.URL;type=pref:https://github.com/alice",
        str "item1.X-ABLabel:GitHub", str "END:VCARD"] := by rfl
  have h := build_vcard_line_width (str "Alice Example") (str "Alice") (str "Example") []
    (str "alice@example.com") [] (str "alice") [] [] [] [] [] [] CRLF (Or.inl rfl) _ hls
  exact ⟨Or.inl rfl, h.2.2.1⟩
